import Mathlib

/-!
Verification model of the routing-table service (weekmo/routing-table-api).

The development shallowly embeds the Python source:
* `service/lib/radix_tree.py` — `RouteInfo`, `RadixNode`, `RadixTree` with
  `insert`, `lookup`, `update_metric`, `_update_subtree`;
* `service/main.py` — `cached_radix_lookup` (an `functools.lru_cache`d lookup),
  `lpm_update`, and the `GET /destination` and `PUT /prefix/...` handlers;
* `service/lib/data.py` — the loader pieces (`get_df_polars` row shape,
  `prep_df` next-hop numeric column, `build_radix_tree`, `lpm_lookup_radix`).

Python `ipaddress` functions used by the source (`ip_address`, strict
`ip_network`, `with_prefixlen`, `subnet_of`) are modelled below over `Nat`
addresses.  The IPv6 textual forms cover the standard hextet and
double-colon-compressed grammar (no IPv4-embedded form).  Python `None`
children of a `RadixNode` are modelled by the `RTree.nil` constructor, and
exceptions (`ValueError`) by `Option`.  The Python attribute
`RouteInfo.prefix` is called `prefix_str` here.
-/

/-- Single-character split, the behaviour of Python `s.split(sep)` and of
`String.splitOn` for a one-character separator (defined structurally so the
kernel can evaluate it). -/
def splitOnChar (sep : Char) : List Char → List (List Char)
  | [] => [[]]
  | c :: cs =>
      match splitOnChar sep cs with
      | [] => [[]]
      | g :: gs => if c = sep then [] :: g :: gs else (c :: g) :: gs

/-- Split on the two-character separator `::`, scanning left to right, the
behaviour of Python `s.split("::")`. -/
def splitOnColonColon : List Char → List (List Char)
  | [] => [[]]
  | [c] => [[c]]
  | c1 :: c2 :: cs =>
      if c1 = ':' ∧ c2 = ':' then [] :: splitOnColonColon cs
      else
        match splitOnColonColon (c2 :: cs) with
        | [] => [[c1]]
        | g :: gs => (c1 :: g) :: gs

/-- Decimal digit accumulation, the core of Python `int(s)` for unsigned
decimal strings (no sign handling; the service never passes signs). -/
def parseDecDigits : List Char → Nat → Option Nat
  | [], acc => some acc
  | c :: cs, acc =>
      if c.isDigit then parseDecDigits cs (acc * 10 + (c.toNat - 48)) else none

/-- Python `int(s)` on a non-empty all-digit string (used for prefix lengths,
where `ipaddress` checks `isdigit` before converting). -/
def parseDigits (cs : List Char) : Option Nat :=
  if cs.isEmpty then none else parseDecDigits cs 0

/-- One dotted-quad octet as accepted by Python `ipaddress`: 1–3 digits,
no leading zero (unless the octet is exactly "0"), value ≤ 255. -/
def parseOctet (cs : List Char) : Option Nat :=
  if cs.length = 0 ∨ 3 < cs.length then none
  else if ¬ (cs.all Char.isDigit) then none
  else if 1 < cs.length ∧ cs.headD 'x' = '0' then none
  else match parseDecDigits cs 0 with
       | some n => if n ≤ 255 then some n else none
       | none => none

/-- Python `IPv4Address(s)`: exactly four octets separated by dots. -/
def parseIPv4 (cs : List Char) : Option Nat :=
  match splitOnChar '.' cs with
  | [a, b, c, d] =>
    match parseOctet a, parseOctet b, parseOctet c, parseOctet d with
    | some w, some x, some y, some z => some (((w * 256 + x) * 256 + y) * 256 + z)
    | _, _, _, _ => none
  | _ => none

/-- Value of one hex digit (both cases), as in Python int(_, 16). -/
def hexVal (c : Char) : Option Nat :=
  if 48 ≤ c.toNat ∧ c.toNat ≤ 57 then some (c.toNat - 48)
  else if 97 ≤ c.toNat ∧ c.toNat ≤ 102 then some (c.toNat - 87)
  else if 65 ≤ c.toNat ∧ c.toNat ≤ 70 then some (c.toNat - 55)
  else none

/-- Hex digit accumulation. -/
def parseHexDigits : List Char → Nat → Option Nat
  | [], acc => some acc
  | c :: cs, acc =>
      match hexVal c with
      | some d => parseHexDigits cs (acc * 16 + d)
      | none => none

/-- One IPv6 hextet: 1–4 hex digits. -/
def parseHextet (cs : List Char) : Option Nat :=
  if cs.length = 0 ∨ 4 < cs.length then none else parseHexDigits cs 0

/-- Parse a list of hextet strings. -/
def parseHextets : List (List Char) → Option (List Nat)
  | [] => some []
  | s :: ss =>
      match parseHextet s, parseHextets ss with
      | some g, some gs => some (g :: gs)
      | _, _ => none

/-- Big-endian 16-bit-group accumulation of an IPv6 value. -/
def groupsVal (gs : List Nat) : Nat := gs.foldl (fun a g => a * 65536 + g) 0

/-- Hextet groups on one side of a `::`; an empty side contributes no group. -/
def splitGroups (cs : List Char) : Option (List Nat) :=
  if cs.isEmpty then some [] else parseHextets (splitOnChar ':' cs)

/-- Python `IPv6Address(s)` over the standard grammar: eight hextets, or a
single `::` standing for at least one zero group (IPv4-embedded tails are not
modelled; the repository never uses them). -/
def parseIPv6 (cs : List Char) : Option Nat :=
  match splitOnColonColon cs with
  | [t] =>
    match parseHextets (splitOnChar ':' t) with
    | some gs => if gs.length = 8 then some (groupsVal gs) else none
    | none => none
  | [l, r] =>
    match splitGroups l, splitGroups r with
    | some gl, some gr =>
        if gl.length + gr.length ≤ 7 then
          some (groupsVal (gl ++ List.replicate (8 - gl.length - gr.length) 0 ++ gr))
        else none
    | _, _ => none
  | _ => none

/-- `ip_address` on a character list: try IPv4, then IPv6. -/
def ipAddrChars (cs : List Char) : Option (Nat × Nat) :=
  match parseIPv4 cs with
  | some a => some (4, a)
  | none =>
    match parseIPv6 cs with
    | some a => some (6, a)
    | none => none

/-- Python `ipaddress.ip_address(s)`.  Returns `(version, integer value)`;
`none` models the raised `ValueError`. -/
def ip_address (s : String) : Option (Nat × Nat) :=
  ipAddrChars s.data

/-- Key width of an address family. -/
def maxBitsOf (v : Nat) : Nat := if v = 4 then 32 else 128

/-- A parsed network: family, integer network address, prefix length. -/
structure IpNet where
  version : Nat
  addr : Nat
  plen : Nat
deriving DecidableEq

/-- Python `ipaddress.ip_network(s)` with its default `strict=True`: an
optional `/len` part, length within the family range, and the host bits
below the prefix length must already be zero — otherwise `ValueError`
("has host bits set"), modelled as `none`. -/
def ip_network (s : String) : Option IpNet :=
  match splitOnChar '/' s.data with
  | [a] =>
    match ipAddrChars a with
    | some (v, x) => some ⟨v, x, maxBitsOf v⟩
    | none => none
  | [a, l] =>
    match ipAddrChars a, parseDigits l with
    | some (v, x), some len =>
        if len ≤ maxBitsOf v ∧ x % 2 ^ (maxBitsOf v - len) = 0 then some ⟨v, x, len⟩
        else none
    | _, _ => none
  | _ => none

/-- Dotted-quad text of an IPv4 value, as Python `str(IPv4Address)`. -/
def formatIPv4 (a : Nat) : String :=
  toString (a / 2 ^ 24 % 256) ++ "." ++ toString (a / 2 ^ 16 % 256) ++ "." ++
    toString (a / 2 ^ 8 % 256) ++ "." ++ toString (a % 256)

/-- Lowercase hex digit character. -/
def hexDigitChar (n : Nat) : Char :=
  if n < 10 then Char.ofNat (48 + n) else Char.ofNat (87 + n)

/-- Lowercase hex text of one hextet, without leading zeros. -/
def hexHextet (n : Nat) : String :=
  let ds := [n / 4096 % 16, n / 256 % 16, n / 16 % 16, n % 16]
  let ds2 := ds.dropWhile (· = 0)
  String.mk ((if ds2.isEmpty then [0] else ds2).map hexDigitChar)

/-- The eight 16-bit groups of an IPv6 value, most significant first. -/
def v6Groups (a : Nat) : List Nat :=
  (List.range 8).map (fun i => a / 2 ^ (16 * (7 - i)) % 65536)

/-- Length of the zero run starting at index `i`. -/
def zeroRunAt (gs : List Nat) (i : Nat) : Nat :=
  ((gs.drop i).takeWhile (· = 0)).length

/-- Leftmost longest zero run `(start, length)`, as Python
`_compress_hextets` finds it. -/
def bestZeroRun (gs : List Nat) : Nat × Nat :=
  (List.range gs.length).foldl
    (fun best i => let l := zeroRunAt gs i; if best.2 < l then (i, l) else best) (0, 0)

/-- Compressed text of an IPv6 value, as Python `str(IPv6Address)`: the
leftmost longest run of two or more zero groups becomes `::`. -/
def formatIPv6 (a : Nat) : String :=
  let gs := v6Groups a
  let br := bestZeroRun gs
  if br.2 ≤ 1 then String.intercalate ":" (gs.map hexHextet)
  else
    String.intercalate ":" ((gs.take br.1).map hexHextet) ++ "::" ++
      String.intercalate ":" ((gs.drop (br.1 + br.2)).map hexHextet)

/-- Text of the network address, `str(net.network_address)` in Python. -/
def IpNet.addrText (n : IpNet) : String :=
  if n.version = 4 then formatIPv4 n.addr else formatIPv6 n.addr

/-- Python `net.with_prefixlen`: canonical CIDR text. -/
def IpNet.with_prefixlen (n : IpNet) : String :=
  n.addrText ++ "/" ++ toString n.plen

/-- The bit path of the top `len` bits of `a` in a `maxBits`-wide family,
most significant bit first — exactly the bits the Python loops
`for bit_pos in range(max_bits - 1, max_bits - prefix_len - 1, -1)` visit. -/
def pathBits (a maxBits len : Nat) : List Bool :=
  (List.range len).map (fun i => a.testBit (maxBits - 1 - i))

/-- `RouteInfo` from `radix_tree.py` (the Python attribute `prefix` is
`prefix_str` here; `nhn` is the next hop as an integer, 0 when the next hop
does not parse as an IP). -/
structure RouteInfo where
  prefix_str : String
  next_hop : String
  metric : Nat
  prefix_len : Nat
  version : Nat
  nhn : Nat
deriving DecidableEq

/-- A `RadixNode` tree; the Python `None` child is `nil`. -/
inductive RTree where
  | nil : RTree
  | node (left right : RTree) (routes : List RouteInfo) : RTree
deriving DecidableEq

/-- Entry list of a node (`[]` for an absent node). -/
def RTree.routes : RTree → List RouteInfo
  | .nil => []
  | .node _ _ rs => rs

/-- `RadixTree.insert`'s node walk: descend `prefix_len` bits, creating
children as needed, and append the entry at the final node. -/
def insertAt : RTree → List Bool → RouteInfo → RTree
  | .nil, [], e => .node .nil .nil [e]
  | .node l r rs, [], e => .node l r (rs ++ [e])
  | .nil, b :: bs, e =>
      if b then .node .nil (insertAt .nil bs e) [] else .node (insertAt .nil bs e) .nil []
  | .node l r rs, b :: bs, e =>
      if b then .node l (insertAt r bs e) rs else .node (insertAt l bs e) r rs

/-- `RadixTree.lookup`'s walk: emit the entries at the root, then follow the
address bits, emitting each visited node's entries, stopping at the first
absent child. -/
def collectPath : RTree → List Bool → List RouteInfo
  | .nil, _ => []
  | .node _ _ rs, [] => rs
  | .node l r rs, b :: bs => rs ++ collectPath (if b then r else l) bs

/-- `update_metric`'s navigation: follow the prefix bits; `none` when a
child on the way is absent. -/
def navigateTo : RTree → List Bool → Option RTree
  | .nil, _ => none
  | .node l r rs, [] => some (.node l r rs)
  | .node l r _, b :: bs => navigateTo (if b then r else l) bs

/-- One node's metric pass: set `metric := m` on entries satisfying `p`. -/
def setMetricIf (p : RouteInfo → Bool) (m : Nat) (rs : List RouteInfo) : List RouteInfo :=
  rs.map (fun e => if p e then { e with metric := m } else e)

/-- `RadixTree._update_subtree`: recursively set the metric of every entry
whose `next_hop` matches, returning the new subtree and the count. -/
def update_subtree (nh : String) (m : Nat) : RTree → RTree × Nat
  | .nil => (.nil, 0)
  | .node l r rs =>
      let rs2 := setMetricIf (fun e => e.next_hop == nh) m rs
      let c := rs.countP (fun e => e.next_hop == nh)
      let ul := update_subtree nh m l
      let ur := update_subtree nh m r
      (.node ul.1 ur.1 rs2, c + ul.2 + ur.2)

/-- The `"exact"` branch of `update_metric`: navigate to the prefix node
(0 and unchanged tree when a child is absent) and update the entries there
whose `next_hop` matches and whose stored prefix text equals the canonical
prefix text `cn`. -/
def update_exact (cn nh : String) (m : Nat) : RTree → List Bool → RTree × Nat
  | .nil, _ => (.nil, 0)
  | .node l r rs, [] =>
      (.node l r (setMetricIf (fun e => e.next_hop == nh && e.prefix_str == cn) m rs),
       rs.countP (fun e => e.next_hop == nh && e.prefix_str == cn))
  | .node l r rs, b :: bs =>
      if b then
        let u := update_exact cn nh m r bs
        (.node l u.1 rs, u.2)
      else
        let u := update_exact cn nh m l bs
        (.node u.1 r rs, u.2)

/-- The `"orlonger"` branch of `update_metric`: navigate to the prefix node
(0 and unchanged tree when a child is absent) and run `update_subtree`
there. -/
def update_orlonger (nh : String) (m : Nat) : RTree → List Bool → RTree × Nat
  | .nil, _ => (.nil, 0)
  | .node l r rs, [] => update_subtree nh m (.node l r rs)
  | .node l r rs, b :: bs =>
      if b then
        let u := update_orlonger nh m r bs
        (.node l u.1 rs, u.2)
      else
        let u := update_orlonger nh m l bs
        (.node u.1 r rs, u.2)

/-- `RadixTree` from `radix_tree.py`: one root per family plus the running
route count. -/
structure RadixTree where
  ipv4_root : RTree
  ipv6_root : RTree
  route_count : Nat
deriving DecidableEq

/-- A fresh `RadixTree()`: both roots are real (empty) nodes. -/
def RadixTree.empty : RadixTree :=
  ⟨.node .nil .nil [], .node .nil .nil [], 0⟩

/-- The `RouteInfo` built by `RadixTree.insert` for a parsed network:
text fields verbatim, `nhn` from `ip_address(next_hop)` with fallback 0. -/
def mkRoute (pfx nh : String) (metric : Nat) (net : IpNet) : RouteInfo :=
  { prefix_str := pfx, next_hop := nh, metric := metric, prefix_len := net.plen,
    version := net.version,
    nhn := match ip_address nh with
           | some va => va.2
           | none => 0 }

/-- `RadixTree.insert`: parse the prefix (`none` models the raised
`ValueError`), walk the family root along the prefix bits and append the
entry; the route count increases by one. -/
def RadixTree.insert (t : RadixTree) (pfx nh : String) (metric : Nat) :
    Option RadixTree :=
  match ip_network pfx with
  | none => none
  | some net =>
    let e := mkRoute pfx nh metric net
    let bits := pathBits net.addr (maxBitsOf net.version) net.plen
    if net.version = 4 then
      some { t with ipv4_root := insertAt t.ipv4_root bits e,
                    route_count := t.route_count + 1 }
    else
      some { t with ipv6_root := insertAt t.ipv6_root bits e,
                    route_count := t.route_count + 1 }

/-- `RadixTree.lookup`: parse the address (`none` models `ValueError`),
then collect every entry on the root-to-leaf walk along all address bits. -/
def RadixTree.lookup (t : RadixTree) (ip : String) : Option (List RouteInfo) :=
  match ip_address ip with
  | none => none
  | some va =>
    let root := if va.1 = 4 then t.ipv4_root else t.ipv6_root
    some (collectPath root (pathBits va.2 (maxBitsOf va.1) (maxBitsOf va.1)))

/-- Core of `RadixTree.update_metric` on an already-parsed network. -/
def updateMetricNet (t : RadixTree) (net : IpNet) (nh : String) (m : Nat)
    (matchd : String) : RadixTree × Nat :=
  let bits := pathBits net.addr (maxBitsOf net.version) net.plen
  if net.version = 4 then
    let u := if matchd = "exact" then update_exact net.with_prefixlen nh m t.ipv4_root bits
             else update_orlonger nh m t.ipv4_root bits
    ({ t with ipv4_root := u.1 }, u.2)
  else
    let u := if matchd = "exact" then update_exact net.with_prefixlen nh m t.ipv6_root bits
             else update_orlonger nh m t.ipv6_root bits
    ({ t with ipv6_root := u.1 }, u.2)

/-- `RadixTree.update_metric`: parse the prefix (`none` models the raised
`ValueError`), then update per match mode (any mode other than `"exact"`
takes the `"orlonger"` branch, as in the source's `else`). -/
def RadixTree.update_metric (t : RadixTree) (pfx nh : String) (m : Nat)
    (matchd : String) : Option (RadixTree × Nat) :=
  match ip_network pfx with
  | none => none
  | some net => some (updateMetricNet t net nh m matchd)

/-- Lexicographic "best route" order of `main.py`'s sort key
`(-prefix_len, metric, nhn)`: longer prefix first, then smaller metric,
then smaller numeric next hop. -/
def routeLe (a b : RouteInfo) : Prop :=
  b.prefix_len < a.prefix_len ∨
    (a.prefix_len = b.prefix_len ∧
      (a.metric < b.metric ∨ (a.metric = b.metric ∧ a.nhn ≤ b.nhn)))

instance : DecidableRel routeLe := fun a b => by
  unfold routeLe; exact inferInstance

instance : IsTotal RouteInfo routeLe := by
  constructor; intro a b; unfold routeLe; omega

instance : IsTrans RouteInfo routeLe := by
  constructor; intro a b c hab hbc; unfold routeLe at *; omega

/-- The stable sort `sorted(result, key=lambda r: (-r.prefix_len, r.metric, r.nhn))`. -/
def sortRoutes (l : List RouteInfo) : List RouteInfo :=
  l.insertionSort routeLe

/-- Pure core of `main.py`'s `cached_radix_lookup`: full trie lookup, then
the head of the sorted candidates as `(prefix, next_hop, metric)`; `none`
both for an empty candidate set and for an unparsable address (the latter
never happens in the service, which passes a formatted network address). -/
def cached_radix_lookup (t : RadixTree) (ip : String) :
    Option (String × String × Nat) :=
  match t.lookup ip with
  | none => none
  | some l =>
    match sortRoutes l with
    | [] => none
    | b :: _ => some (b.prefix_str, b.next_hop, b.metric)

/-- The `functools.lru_cache` state: key/value pairs, most recent first.
A stored value may itself be `none` — `lru_cache` memoises `None` returns. -/
abbrev Cache := List (String × Option (String × String × Nat))

/-- Capacity `maxsize=10000` of the `lru_cache`. -/
def lruMaxsize : Nat := 10000

/-- Raw cache probe. -/
def cacheGet (c : Cache) (k : String) : Option (Option (String × String × Nat)) :=
  (c.find? (fun p => p.1 == k)).map (fun p => p.2)

/-- An access moves the key to the front (most recently used). -/
def moveToFront (c : Cache) (k : String) : Cache :=
  match cacheGet c k with
  | some v => (k, v) :: c.filter (fun p => p.1 != k)
  | none => c

/-- A call through the `lru_cache` wrapper: on a hit return the memoised
value (even a memoised `None`); on a miss run `cached_radix_lookup`, store
whatever it returns, and evict the least recently used entry beyond
capacity. -/
def cacheCall (t : RadixTree) (c : Cache) (k : String) :
    Option (String × String × Nat) × Cache :=
  match cacheGet c k with
  | some v => (v, moveToFront c k)
  | none =>
    let v := cached_radix_lookup t k
    (v, ((k, v) :: c).take lruMaxsize)

/-- `lpm_lookup_radix` from `data.py`: `[]` for an unparsable address
(caught `ValueError` → empty DataFrame), otherwise the rows of the trie
lookup, one per `RouteInfo`. -/
def lpm_lookup_radix (t : RadixTree) (ip : String) : List RouteInfo :=
  match ip_address ip with
  | none => []
  | some _ =>
    match t.lookup ip with
    | some rs => rs
    | none => []

/-- One row of the loaded DataFrame, restricted to the columns the modelled
behaviour reads (`prefix`, `next_hop`, `v`, `metric`; the hex `addr`/`mask`
columns feed only the legacy `lpm_map`, which the service does not call). -/
structure Row where
  prefix_str : String
  next_hop : String
  v : Nat
  metric : Nat
deriving DecidableEq

/-- Row shape produced by `get_df_polars`: the `v` column is 6 exactly when
the prefix text contains a colon, and the metric column is the load default
`0x8000 = 32768`. -/
def mkRow (pfx nh : String) : Row :=
  { prefix_str := pfx, next_hop := nh,
    v := if pfx.data.contains ':' then 6 else 4, metric := 32768 }

/-- `build_radix_tree` from `data.py`: insert every row in order; `none`
models the `ValueError` that would abort loading. -/
def build_radix_tree (rows : List Row) : Option RadixTree :=
  rows.foldlM (fun t r => t.insert r.prefix_str r.next_hop r.metric) RadixTree.empty

/-- Python `int(p)` as used in `prep_df`'s `ipv4_to_int` (decimal digits,
leading zeros allowed, anything else raises). -/
def pyInt (cs : List Char) : Option Nat :=
  if cs.isEmpty then none else parseDecDigits cs 0

/-- Width of the Python f-string field `f'{p:02x}'`: at least two hex
digits, more for values ≥ 256. -/
def hex02Width (p : Nat) : Nat := max 2 (Nat.log 16 p + 1)

/-- `ipv4_to_int` from `prep_df`: split on dots, render each part as
zero-padded hex, join, and read the concatenation back in base 16 — here
computed directly as the corresponding fold.  `none` models the
`ValueError` of `int(p)` on a non-numeric part. -/
def ipv4_to_int (ip : String) : Option Nat :=
  match (splitOnChar '.' ip.data).mapM pyInt with
  | some parts => some (parts.foldl (fun acc p => acc * 16 ^ hex02Width p + p) 0)
  | none => none

/-- The `nhn` column value `prep_df` computes for one row: for v4 rows the
`ipv4_to_int` of the next hop, for v6 rows the integer of
`ip_network(next_hop).network_address`.  `none` models the exception that
aborts `prep_df` (and hence loading). -/
def prep_row_nhn (r : Row) : Option String :=
  if r.v = 4 then
    match ipv4_to_int r.next_hop with
    | some n => some (toString n)
    | none => none
  else
    match ip_network r.next_hop with
    | some n => some (toString n.addr)
    | none => none

/-- The part of `prep_df` that can fail: computing the `nhn` column of every
row.  `none` models the raised exception, which makes startup loading abort. -/
def prep_df (rows : List Row) : Option (List (Row × String)) :=
  rows.mapM (fun r => (prep_row_nhn r).map (fun s => (r, s)))

/-- Python `a.subnet_of(b)` for same-version networks: network-address and
broadcast-address interval containment. -/
def subnet_of (a b : IpNet) : Bool :=
  decide (b.addr ≤ a.addr ∧
    a.addr + 2 ^ (maxBitsOf a.version - a.plen) - 1 ≤
      b.addr + 2 ^ (maxBitsOf b.version - b.plen) - 1)

/-- `is_subnet_of_prefix` from `lpm_update`: parse the stored prefix text
(any exception → `False`), require same version and an equal-or-longer
prefix, then `subnet_of`. -/
def is_subnet_of_pfx (pn : IpNet) (s : String) : Bool :=
  match ip_network s with
  | none => false
  | some rn =>
    if rn.version ≠ pn.version ∨ rn.plen < pn.plen then false
    else subnet_of rn pn

/-- The `"exact"` row mask of `lpm_update`: same next hop and prefix text
equal to the canonical prefix text. -/
def dfMaskExact (pn : IpNet) (nh : String) (r : Row) : Bool :=
  r.next_hop == nh && r.prefix_str == pn.with_prefixlen

/-- `matching_prefixes` of `lpm_update`'s orlonger branch: the prefix texts
of candidate rows (same next hop and version) passing the subnet check. -/
def matchingPfxTexts (rows : List Row) (pn : IpNet) (nh : String) : List String :=
  ((rows.filter (fun r => r.next_hop == nh && r.v == pn.version)).map
      (fun r => r.prefix_str)).filter (is_subnet_of_pfx pn)

/-- Number of rows of `next_hop_df` in the orlonger branch: candidate rows
whose prefix text is in `matching_prefixes`. -/
def dfCountOrlonger (rows : List Row) (pn : IpNet) (nh : String) : Nat :=
  ((rows.filter (fun r => r.next_hop == nh && r.v == pn.version)).filter
      (fun r => (matchingPfxTexts rows pn nh).contains r.prefix_str)).length

/-- Number of rows of `next_hop_df` in the exact branch. -/
def dfCountExact (rows : List Row) (pn : IpNet) (nh : String) : Nat :=
  (rows.filter (dfMaskExact pn nh)).length

/-- `len(next_hop_df)` as `lpm_update` produces it for either mode. -/
def dfCount (rows : List Row) (pn : IpNet) (nh : String) (matchd : String) : Nat :=
  if matchd = "exact" then dfCountExact rows pn nh else dfCountOrlonger rows pn nh

/-- The DataFrame metric write-back of `lpm_update` (the `updated_df`). -/
def dfUpdateRows (rows : List Row) (pn : IpNet) (nh : String) (m : Nat)
    (matchd : String) : List Row :=
  if matchd = "exact" then
    rows.map (fun r => if dfMaskExact pn nh r then { r with metric := m } else r)
  else
    let mp := matchingPfxTexts rows pn nh
    if mp.isEmpty then rows
    else rows.map (fun r =>
      if r.next_hop == nh && mp.contains r.prefix_str then { r with metric := m } else r)

/-- `settings.max_metric` default (`MAX_METRIC=32768`). -/
def max_metric : Nat := 32768

/-- The module-level mutable state of `main.py`: the DataFrame mirror, the
radix tree, and the `lru_cache` of `cached_radix_lookup`. -/
structure ServiceState where
  rows : List Row
  tree : RadixTree
  cache : Cache
deriving DecidableEq

/-- `lpm_update` from `main.py`: compute the filtered rows and updated
DataFrame per match mode, and update the radix tree through the canonical
prefix text (the source re-parses `prefix_ip.with_prefixlen`); `none`
models an exception escaping the handler. -/
def lpm_update (rows : List Row) (tree : RadixTree) (pn : IpNet) (nh : String)
    (m : Nat) (matchd : String) : Option (List Row × Nat × RadixTree) :=
  match RadixTree.update_metric tree pn.with_prefixlen nh m matchd with
  | some tc => some (dfUpdateRows rows pn nh m matchd, dfCount rows pn nh matchd, tc.1)
  | none => none

/-- Responses of `GET /destination` (`serverError` stands for the
`AttributeError` the dead DataFrame-sorting branch would raise: a polars
frame has no `sort_values`/`iloc`). -/
inductive LookupResponse where
  | ok (dst nh : String)
  | badRequest
  | notFound
  | serverError
deriving DecidableEq

/-- Responses of the `PUT /prefix/...` handlers. -/
inductive UpdateResponse where
  | ok (updated : Nat)
  | badRequest
  | notFound
  | serverError
deriving DecidableEq

/-- `GET /destination/{prefix}` (`get_nh` in `main.py`): parse (400 on
failure), probe the cache keyed by the network-address text, answer a hit;
on a `None` fall through to a direct radix lookup, a 404 when it is empty,
and otherwise the dead polars `sort_values` branch. -/
def get_nh (st : ServiceState) (pfxStr : String) : LookupResponse × ServiceState :=
  match ip_network pfxStr with
  | none => (.badRequest, st)
  | some pn =>
    let key := pn.addrText
    let rc := cacheCall st.tree st.cache key
    match rc.1 with
    | some dnm => (.ok dnm.1 dnm.2.1, { st with cache := rc.2 })
    | none =>
      match lpm_lookup_radix st.tree key with
      | [] => (.notFound, { st with cache := rc.2 })
      | _ :: _ => (.serverError, { st with cache := rc.2 })

/-- `PUT /prefix/{prefix}/nh/{nh}/metric/{metric}/match/{matchd}`
(`update_match` in `main.py`): validate metric range and match mode (400),
parse prefix and next hop (400), run `lpm_update` — the DataFrame and tree
are updated even when the count is 0 (404, cache kept) — and on a positive
count clear the whole cache before responding. -/
def update_match_endpoint (st : ServiceState) (pfxStr nhStr : String) (m : Nat)
    (matchd : String) : UpdateResponse × ServiceState :=
  if m < 1 ∨ max_metric < m then (.badRequest, st)
  else if matchd ≠ "orlonger" ∧ matchd ≠ "exact" then (.badRequest, st)
  else
    match ip_network pfxStr, ip_network nhStr with
    | some pn, some _ =>
      match lpm_update st.rows st.tree pn nhStr m matchd with
      | none => (.serverError, st)
      | some rct =>
        if rct.2.1 = 0 then
          (.notFound, { rows := rct.1, tree := rct.2.2, cache := st.cache })
        else
          (.ok rct.2.1, { rows := rct.1, tree := rct.2.2, cache := [] })
    | _, _ => (.badRequest, st)

/-- `PUT /prefix/{prefix}/nh/{nh}/metric/{metric}` (`update` in `main.py`):
identical to the match-mode handler with the implicit `"orlonger"` mode. -/
def update_endpoint (st : ServiceState) (pfxStr nhStr : String) (m : Nat) :
    UpdateResponse × ServiceState :=
  update_match_endpoint st pfxStr nhStr m "orlonger"

/-! ### Characterization helpers (proof-side views of the trie) -/

/-- The subtree reached by following `p` (absent nodes give `nil`). -/
def RTree.subtree : RTree → List Bool → RTree
  | .nil, _ => .nil
  | .node l r rs, [] => .node l r rs
  | .node l r _, b :: bs => RTree.subtree (if b then r else l) bs

/-- The entries attached at the node addressed by `p`. -/
def routesAt (t : RTree) (p : List Bool) : List RouteInfo :=
  (t.subtree p).routes

/-- All entries of a tree, in preorder (as `_collect_routes` emits them). -/
def RTree.allRoutes : RTree → List RouteInfo
  | .nil => []
  | .node l r rs => rs ++ l.allRoutes ++ r.allRoutes

/-- The node skeleton, forgetting the entries. -/
def RTree.shape : RTree → RTree
  | .nil => .nil
  | .node l r _ => .node l.shape r.shape []

/-- Apply `f` to the entry list of every node. -/
def mapTreeRoutes (f : List RouteInfo → List RouteInfo) : RTree → RTree
  | .nil => .nil
  | .node l r rs => .node (mapTreeRoutes f l) (mapTreeRoutes f r) (f rs)

/-- Apply `f` to the entry list of the node at `p` only. -/
def mapAtPath : RTree → List Bool → (List RouteInfo → List RouteInfo) → RTree
  | .nil, _, _ => .nil
  | .node l r rs, [], f => .node l r (f rs)
  | .node l r rs, b :: bs, f =>
      if b then .node l (mapAtPath r bs f) rs else .node (mapAtPath l bs f) r rs

/-- Apply `f` to the entry lists of the node at `p` and its whole subtree. -/
def mapBelowPath : RTree → List Bool → (List RouteInfo → List RouteInfo) → RTree
  | .nil, _, _ => .nil
  | .node l r rs, [], f => mapTreeRoutes f (.node l r rs)
  | .node l r rs, b :: bs, f =>
      if b then .node l (mapBelowPath r bs f) rs else .node (mapBelowPath l bs f) r rs

/-- Boolean list-prefix test. -/
def listPfx : List Bool → List Bool → Bool
  | [], _ => true
  | _ :: _, [] => false
  | a :: as, b :: bs => a == b && listPfx as bs

/-- The nodes visited by `lookup`'s walk, root first, stopping at the first
absent child — the claim-side view of the lookup path. -/
def pathNodes : RTree → List Bool → List RTree
  | .nil, _ => []
  | .node l r rs, [] => [.node l r rs]
  | .node l r rs, b :: bs => .node l r rs :: pathNodes (if b then r else l) bs

/-- The entries attached at the visited nodes, in visit order. -/
def pathEntriesSpec (t : RTree) (bits : List Bool) : List RouteInfo :=
  ((pathNodes t bits).map RTree.routes).flatten

/-- Family-root selector (`four = true` picks the IPv4 tree). -/
def rootSel (t : RadixTree) (four : Bool) : RTree :=
  if four then t.ipv4_root else t.ipv6_root

/-- Concrete routing fixtures used by the witness theorems. -/
def tieRows : List Row :=
  [mkRow "192.168.1.0/24" "10.0.0.2", mkRow "192.168.1.0/24" "10.0.0.1"]

/-- The tie-break fixture tree. -/
def tieTree : RadixTree := (build_radix_tree tieRows).getD RadixTree.empty

/-- Lookup candidates of the tie-break fixture. -/
def tieLookup : List RouteInfo := (tieTree.lookup "192.168.1.1").getD []

/-- Nested-prefix fixture rows (scenario 6 of the spec). -/
def sampleRows : List Row :=
  [mkRow "10.0.0.0/8" "192.168.1.1", mkRow "10.1.0.0/16" "192.168.1.1",
   mkRow "10.1.1.0/24" "192.168.1.1"]

/-- The nested-prefix fixture tree. -/
def sampleTree : RadixTree := (build_radix_tree sampleRows).getD RadixTree.empty

/-- A loaded service state over the nested-prefix fixture. -/
def sampleState : ServiceState := ⟨sampleRows, sampleTree, []⟩

/-- `build_radix_tree` generalised to an arbitrary starting tree. -/
def buildFrom (t0 : RadixTree) (rows : List Row) : Option RadixTree :=
  rows.foldlM (fun t r => t.insert r.prefix_str r.next_hop r.metric) t0

/-- Whether a row contributes, in family view `four`, an entry in the
subtree addressed by `p` that satisfies `pred`. -/
def rowSubtreePred (four : Bool) (p : List Bool) (pred : RouteInfo → Bool)
    (r : Row) : Bool :=
  match ip_network r.prefix_str with
  | some net =>
      ((net.version == 4) == four) &&
        listPfx p (pathBits net.addr (maxBitsOf net.version) net.plen) &&
        pred (mkRoute r.prefix_str r.next_hop r.metric net)
  | none => false

/-- Whether a row contributes, in family view `four`, an entry at the node
addressed by `q` that satisfies `pred`. -/
def rowNodePred (four : Bool) (q : List Bool) (pred : RouteInfo → Bool)
    (r : Row) : Bool :=
  match ip_network r.prefix_str with
  | some net =>
      ((net.version == 4) == four) &&
        decide (pathBits net.addr (maxBitsOf net.version) net.plen = q) &&
        pred (mkRoute r.prefix_str r.next_hop r.metric net)
  | none => false

theorem subtree_nil (p : List Bool) : RTree.nil.subtree p = .nil := by
  cases p <;> rfl

theorem routesAt_nil (p : List Bool) : routesAt .nil p = [] := by
  simp [routesAt, subtree_nil, RTree.routes]

theorem routesAt_node_nil (l r : RTree) (rs : List RouteInfo) :
    routesAt (.node l r rs) [] = rs := rfl

theorem routesAt_node_cons (l r : RTree) (rs : List RouteInfo) (c : Bool)
    (qs : List Bool) :
    routesAt (.node l r rs) (c :: qs) = routesAt (if c then r else l) qs := by
  cases c <;> rfl

theorem routesAt_insertAt (e : RouteInfo) :
    ∀ (p : List Bool) (t : RTree) (q : List Bool),
      routesAt (insertAt t p e) q = routesAt t q ++ (if q = p then [e] else []) := by
  intro p
  induction p with
  | nil =>
    intro t q
    cases t with
    | nil =>
      cases q with
      | nil => simp [insertAt, routesAt_node_nil, routesAt_nil]
      | cons c qs =>
        cases c <;>
          simp [insertAt, routesAt_node_cons, routesAt_nil]
    | node l r rs =>
      cases q with
      | nil => simp [insertAt, routesAt_node_nil]
      | cons c qs =>
        cases c <;> simp [insertAt, routesAt_node_cons]
  | cons b bs ih =>
    intro t q
    cases t with
    | nil =>
      cases q with
      | nil => cases b <;> simp [insertAt, routesAt_node_nil, routesAt_nil]
      | cons c qs =>
        cases b <;> cases c <;>
          simp [insertAt, routesAt_node_cons, routesAt_nil, ih]
    | node l r rs =>
      cases q with
      | nil => cases b <;> simp [insertAt, routesAt_node_nil]
      | cons c qs =>
        cases b <;> cases c <;>
          simp [insertAt, routesAt_node_cons, ih]

theorem navigateTo_eq :
    ∀ (p : List Bool) (t : RTree),
      navigateTo t p = if t.subtree p = .nil then none else some (t.subtree p) := by
  intro p
  induction p with
  | nil =>
    intro t
    cases t with
    | nil => simp [navigateTo, RTree.subtree]
    | node l r rs => simp [navigateTo, RTree.subtree]
  | cons b bs ih =>
    intro t
    cases t with
    | nil => simp [navigateTo, subtree_nil]
    | node l r rs => cases b <;> simp [navigateTo, RTree.subtree, ih]

theorem routesAt_mapTreeRoutes (f : List RouteInfo → List RouteInfo)
    (hf : f [] = []) (t : RTree) :
    ∀ (q : List Bool), routesAt (mapTreeRoutes f t) q = f (routesAt t q) := by
  induction t with
  | nil => intro q; simp [mapTreeRoutes, routesAt_nil, hf]
  | node l r rs ihl ihr =>
    intro q
    cases q with
    | nil => simp [mapTreeRoutes, routesAt_node_nil]
    | cons c qs =>
      cases c <;> simp [mapTreeRoutes, routesAt_node_cons, ihl, ihr]

theorem setMetricIf_nil (p : RouteInfo → Bool) (m : Nat) : setMetricIf p m [] = [] := rfl

theorem update_subtree_eq (nh : String) (m : Nat) (t : RTree) :
    update_subtree nh m t =
      (mapTreeRoutes (setMetricIf (fun e => e.next_hop == nh) m) t,
       t.allRoutes.countP (fun e => e.next_hop == nh)) := by
  induction t with
  | nil => rfl
  | node l r rs ihl ihr =>
    simp [update_subtree, mapTreeRoutes, RTree.allRoutes, List.countP_append, ihl, ihr]
    omega

theorem update_exact_eq (cn nh : String) (m : Nat) :
    ∀ (p : List Bool) (t : RTree),
      update_exact cn nh m t p =
        (mapAtPath t p (setMetricIf (fun e => e.next_hop == nh && e.prefix_str == cn) m),
         (routesAt t p).countP (fun e => e.next_hop == nh && e.prefix_str == cn)) := by
  intro p
  induction p with
  | nil =>
    intro t
    cases t with
    | nil => simp [update_exact, mapAtPath, routesAt_nil]
    | node l r rs => simp [update_exact, mapAtPath, routesAt_node_nil]
  | cons b bs ih =>
    intro t
    cases t with
    | nil => simp [update_exact, mapAtPath, routesAt_nil]
    | node l r rs =>
      cases b <;> simp [update_exact, mapAtPath, routesAt_node_cons, ih]

theorem update_orlonger_eq (nh : String) (m : Nat) :
    ∀ (p : List Bool) (t : RTree),
      update_orlonger nh m t p =
        (mapBelowPath t p (setMetricIf (fun e => e.next_hop == nh) m),
         (t.subtree p).allRoutes.countP (fun e => e.next_hop == nh)) := by
  intro p
  induction p with
  | nil =>
    intro t
    cases t with
    | nil => simp [update_orlonger, mapBelowPath, subtree_nil, RTree.allRoutes]
    | node l r rs =>
      simp [update_orlonger, mapBelowPath, RTree.subtree, update_subtree_eq]
  | cons b bs ih =>
    intro t
    cases t with
    | nil => simp [update_orlonger, mapBelowPath, subtree_nil, RTree.allRoutes]
    | node l r rs =>
      cases b <;> simp [update_orlonger, mapBelowPath, RTree.subtree, ih]

theorem routesAt_mapAtPath (f : List RouteInfo → List RouteInfo) (hf : f [] = []) :
    ∀ (p : List Bool) (t : RTree) (q : List Bool),
      routesAt (mapAtPath t p f) q =
        if q = p then f (routesAt t q) else routesAt t q := by
  intro p
  induction p with
  | nil =>
    intro t q
    cases t with
    | nil =>
      cases q with
      | nil => simp [mapAtPath, routesAt_nil, hf]
      | cons c qs => simp [mapAtPath, routesAt_nil]
    | node l r rs =>
      cases q with
      | nil => simp [mapAtPath, routesAt_node_nil]
      | cons c qs => cases c <;> simp [mapAtPath, routesAt_node_cons]
  | cons b bs ih =>
    intro t q
    cases t with
    | nil =>
      cases q with
      | nil => simp [mapAtPath, routesAt_nil]
      | cons c qs =>
        cases c <;> simp [mapAtPath, routesAt_nil, hf]
    | node l r rs =>
      cases q with
      | nil => cases b <;> simp [mapAtPath, routesAt_node_nil]
      | cons c qs =>
        cases b <;> cases c <;> simp [mapAtPath, routesAt_node_cons, ih]

theorem routesAt_mapBelowPath (f : List RouteInfo → List RouteInfo) (hf : f [] = []) :
    ∀ (p : List Bool) (t : RTree) (q : List Bool),
      routesAt (mapBelowPath t p f) q =
        if listPfx p q then f (routesAt t q) else routesAt t q := by
  intro p
  induction p with
  | nil =>
    intro t q
    cases t with
    | nil => simp [mapBelowPath, listPfx, routesAt_nil, hf]
    | node l r rs => simp [mapBelowPath, listPfx, routesAt_mapTreeRoutes f hf]
  | cons b bs ih =>
    intro t q
    cases t with
    | nil =>
      cases q with
      | nil => simp [mapBelowPath, routesAt_nil, listPfx]
      | cons c qs =>
        cases b <;> cases c <;>
          simp [mapBelowPath, routesAt_nil, listPfx, hf]
    | node l r rs =>
      cases q with
      | nil => cases b <;> simp [mapBelowPath, routesAt_node_nil, listPfx]
      | cons c qs =>
        cases b <;> cases c <;>
          simp [mapBelowPath, routesAt_node_cons, listPfx, ih]

theorem shape_mapAtPath (f : List RouteInfo → List RouteInfo) :
    ∀ (p : List Bool) (t : RTree), (mapAtPath t p f).shape = t.shape := by
  intro p
  induction p with
  | nil => intro t; cases t <;> simp [mapAtPath, RTree.shape]
  | cons b bs ih =>
    intro t
    cases t with
    | nil => simp [mapAtPath, RTree.shape]
    | node l r rs => cases b <;> simp [mapAtPath, RTree.shape, ih]

theorem mapAtPath_of_subtree_nil (f : List RouteInfo → List RouteInfo) :
    ∀ (p : List Bool) (t : RTree), t.subtree p = .nil → mapAtPath t p f = t := by
  intro p
  induction p with
  | nil =>
    intro t h
    cases t with
    | nil => rfl
    | node l r rs => simp [RTree.subtree] at h
  | cons b bs ih =>
    intro t h
    cases t with
    | nil => rfl
    | node l r rs =>
      cases b <;> simp [RTree.subtree] at h <;> simp [mapAtPath, ih _ h]

theorem mapBelowPath_of_subtree_nil (f : List RouteInfo → List RouteInfo) :
    ∀ (p : List Bool) (t : RTree), t.subtree p = .nil → mapBelowPath t p f = t := by
  intro p
  induction p with
  | nil =>
    intro t h
    cases t with
    | nil => rfl
    | node l r rs => simp [RTree.subtree] at h
  | cons b bs ih =>
    intro t h
    cases t with
    | nil => rfl
    | node l r rs =>
      cases b <;> simp [RTree.subtree] at h <;> simp [mapBelowPath, ih _ h]

theorem subtree_insertAt_nilpath (e : RouteInfo) :
    ∀ (pb : List Bool) (t : RTree), (insertAt t pb e).subtree [] = insertAt t pb e := by
  intro pb
  cases pb with
  | nil => intro t; cases t <;> simp [insertAt, RTree.subtree]
  | cons b bs =>
    intro t
    cases t <;> cases b <;> simp [insertAt, RTree.subtree]

theorem countP_allRoutes_insertAt (pred : RouteInfo → Bool) (e : RouteInfo) :
    ∀ (pb : List Bool) (t : RTree),
      (insertAt t pb e).allRoutes.countP pred =
        t.allRoutes.countP pred + (if pred e then 1 else 0) := by
  intro pb
  induction pb with
  | nil =>
    intro t
    cases t <;>
      · simp [insertAt, RTree.allRoutes, List.countP_append, List.countP_cons]
        try omega
  | cons b bs ih =>
    intro t
    cases t <;> cases b <;>
      · simp [insertAt, RTree.allRoutes, List.countP_append, ih]
        try omega

theorem countP_allRoutes_subtree_insertAt (pred : RouteInfo → Bool) (e : RouteInfo) :
    ∀ (p pb : List Bool) (t : RTree),
      ((insertAt t pb e).subtree p).allRoutes.countP pred =
        (t.subtree p).allRoutes.countP pred +
          (if listPfx p pb && pred e then 1 else 0) := by
  intro p
  induction p with
  | nil =>
    intro pb t
    rw [subtree_insertAt_nilpath, countP_allRoutes_insertAt]
    cases t with
    | nil => simp [RTree.subtree, RTree.allRoutes, listPfx]
    | node l r rs => simp [RTree.subtree, listPfx]
  | cons c ps ih =>
    intro pb t
    cases pb with
    | nil =>
      cases t with
      | nil =>
        cases c <;>
          simp [insertAt, RTree.subtree, subtree_nil, RTree.allRoutes, listPfx]
      | node l r rs =>
        cases c <;> simp [insertAt, RTree.subtree, listPfx]
    | cons b pbs =>
      cases t with
      | nil =>
        cases b <;> cases c <;>
          simp [insertAt, RTree.subtree, subtree_nil, RTree.allRoutes, listPfx, ih]
      | node l r rs =>
        cases b <;> cases c <;>
          simp [insertAt, RTree.subtree, listPfx, ih]

theorem build_radix_tree_eq_buildFrom (rows : List Row) :
    build_radix_tree rows = buildFrom RadixTree.empty rows := rfl

theorem pathBits_length (a W l : Nat) : (pathBits a W l).length = l := by
  simp [pathBits]

theorem buildFrom_subtree_countP (four : Bool) (p : List Bool)
    (pred : RouteInfo → Bool) :
    ∀ (rows : List Row) (t0 t : RadixTree), buildFrom t0 rows = some t →
      ((rootSel t four).subtree p).allRoutes.countP pred =
        ((rootSel t0 four).subtree p).allRoutes.countP pred +
          rows.countP (rowSubtreePred four p pred) := by
  intro rows
  induction rows with
  | nil =>
    intro t0 t h
    simp [buildFrom] at h
    subst h
    simp
  | cons r rest ih =>
    intro t0 t h
    simp [buildFrom, List.foldlM_cons] at h
    rcases hins : RadixTree.insert t0 r.prefix_str r.next_hop r.metric with _ | t1
    · rw [hins] at h; simp at h
    · rw [hins] at h
      simp at h
      have hrest : buildFrom t1 rest = some t := h
      rcases hnet : ip_network r.prefix_str with _ | net
      · simp [RadixTree.insert, hnet] at hins
      · simp only [RadixTree.insert, hnet] at hins
        by_cases hv : net.version = 4
        · rw [if_pos hv] at hins
          injection hins with hins
          subst hins
          rw [ih _ _ hrest]
          cases four with
          | true =>
            simp [rootSel, countP_allRoutes_subtree_insertAt, List.countP_cons,
              rowSubtreePred, hnet, hv]
            split <;> omega
          | false =>
            simp [rootSel, List.countP_cons, rowSubtreePred, hnet, hv]
        · rw [if_neg hv] at hins
          injection hins with hins
          subst hins
          rw [ih _ _ hrest]
          cases four with
          | true =>
            simp [rootSel, List.countP_cons, rowSubtreePred, hnet, hv]
          | false =>
            simp [rootSel, countP_allRoutes_subtree_insertAt, List.countP_cons,
              rowSubtreePred, hnet, hv]
            split <;> omega

theorem countP_routesAt_insertAt (pred : RouteInfo → Bool) (e : RouteInfo)
    (pb : List Bool) (t : RTree) (q : List Bool) :
    (routesAt (insertAt t pb e) q).countP pred =
      (routesAt t q).countP pred + (if pb = q ∧ pred e = true then 1 else 0) := by
  rw [routesAt_insertAt, List.countP_append]
  by_cases hq : q = pb
  · subst hq
    simp [List.countP_cons]
  · have hq2 : ¬ (pb = q) := fun hh => hq hh.symm
    simp [hq, hq2]

theorem buildFrom_routesAt_countP (four : Bool) (q : List Bool)
    (pred : RouteInfo → Bool) :
    ∀ (rows : List Row) (t0 t : RadixTree), buildFrom t0 rows = some t →
      (routesAt (rootSel t four) q).countP pred =
        (routesAt (rootSel t0 four) q).countP pred +
          rows.countP (rowNodePred four q pred) := by
  intro rows
  induction rows with
  | nil =>
    intro t0 t h
    simp [buildFrom] at h
    subst h
    simp
  | cons r rest ih =>
    intro t0 t h
    simp [buildFrom, List.foldlM_cons] at h
    rcases hins : RadixTree.insert t0 r.prefix_str r.next_hop r.metric with _ | t1
    · rw [hins] at h; simp at h
    · rw [hins] at h
      simp at h
      have hrest : buildFrom t1 rest = some t := h
      rcases hnet : ip_network r.prefix_str with _ | net
      · simp [RadixTree.insert, hnet] at hins
      · simp only [RadixTree.insert, hnet] at hins
        by_cases hv : net.version = 4
        · rw [if_pos hv] at hins
          injection hins with hins
          subst hins
          rw [ih _ _ hrest]
          cases four with
          | true =>
            simp only [rootSel, if_true, List.countP_cons]
            rw [countP_routesAt_insertAt]
            by_cases hq : pathBits net.addr (maxBitsOf net.version) net.plen = q
            · simp [rowNodePred, hnet, hv, hq]
              try omega
            · simp [rowNodePred, hnet, hv, hq]
              try omega
          | false =>
            simp [rootSel, List.countP_cons, rowNodePred, hnet, hv]
        · rw [if_neg hv] at hins
          injection hins with hins
          subst hins
          rw [ih _ _ hrest]
          cases four with
          | true =>
            simp [rootSel, List.countP_cons, rowNodePred, hnet, hv]
          | false =>
            simp only [rootSel, List.countP_cons]
            rw [if_neg Bool.false_ne_true]
            rw [countP_routesAt_insertAt]
            by_cases hq : pathBits net.addr (maxBitsOf net.version) net.plen = q
            · simp [rowNodePred, hnet, hv, hq]
              try omega
            · simp [rowNodePred, hnet, hv, hq]
              try omega

theorem buildFrom_depth (four : Bool) :
    ∀ (rows : List Row) (t0 t : RadixTree), buildFrom t0 rows = some t →
      (∀ q e, e ∈ routesAt (rootSel t0 four) q → e.prefix_len = q.length) →
      (∀ q e, e ∈ routesAt (rootSel t four) q → e.prefix_len = q.length) := by
  intro rows
  induction rows with
  | nil =>
    intro t0 t h h0
    simp [buildFrom] at h
    subst h
    exact h0
  | cons r rest ih =>
    intro t0 t h h0
    simp [buildFrom, List.foldlM_cons] at h
    rcases hins : RadixTree.insert t0 r.prefix_str r.next_hop r.metric with _ | t1
    · rw [hins] at h; simp at h
    · rw [hins] at h
      simp at h
      have hrest : buildFrom t1 rest = some t := h
      rcases hnet : ip_network r.prefix_str with _ | net
      · simp [RadixTree.insert, hnet] at hins
      · simp only [RadixTree.insert, hnet] at hins
        refine ih _ _ hrest ?_
        by_cases hv : net.version = 4
        · rw [if_pos hv] at hins
          injection hins with hins
          subst hins
          cases four with
          | true =>
            intro q e he
            simp only [rootSel, if_true] at he
            rw [routesAt_insertAt] at he
            rcases List.mem_append.mp he with h1 | h2
            · exact h0 q e h1
            · have hqe : q = pathBits net.addr (maxBitsOf net.version) net.plen ∧
                  e = mkRoute r.prefix_str r.next_hop r.metric net := by
                split at h2 <;> simp_all
              rcases hqe with ⟨hq, he2⟩
              subst hq; subst he2
              simp [mkRoute, pathBits_length]
          | false =>
            intro q e he
            exact h0 q e he
        · rw [if_neg hv] at hins
          injection hins with hins
          subst hins
          cases four with
          | true =>
            intro q e he
            exact h0 q e he
          | false =>
            intro q e he
            simp only [rootSel] at he
            rw [if_neg Bool.false_ne_true] at he
            rw [routesAt_insertAt] at he
            rcases List.mem_append.mp he with h1 | h2
            · exact h0 q e h1
            · have hqe : q = pathBits net.addr (maxBitsOf net.version) net.plen ∧
                  e = mkRoute r.prefix_str r.next_hop r.metric net := by
                split at h2 <;> simp_all
              rcases hqe with ⟨hq, he2⟩
              subst hq; subst he2
              simp [mkRoute, pathBits_length]

theorem sorted_of_all_eq (d : Nat) :
    ∀ (l : List Nat), (∀ x ∈ l, x = d) → l.Sorted (· ≤ ·) := by
  intro l
  induction l with
  | nil => intro _; exact List.sorted_nil
  | cons x xs ih =>
    intro h
    refine List.sorted_cons.mpr ⟨?_, ih (fun y hy => h y (List.mem_cons_of_mem x hy))⟩
    intro y hy
    rw [h x (List.mem_cons_self x xs), h y (List.mem_cons_of_mem x hy)]

theorem collectPath_sorted_aux :
    ∀ (bits : List Bool) (t : RTree) (d : Nat),
      (∀ q e, e ∈ routesAt t q → e.prefix_len = d + q.length) →
      ((collectPath t bits).map RouteInfo.prefix_len).Sorted (· ≤ ·) ∧
        ∀ e ∈ collectPath t bits, d ≤ e.prefix_len := by
  intro bits
  induction bits with
  | nil =>
    intro t d hinv
    cases t with
    | nil => simp [collectPath]
    | node l r rs =>
      have hall : ∀ e ∈ rs, e.prefix_len = d := by
        intro e he
        have := hinv [] e (by simpa [routesAt_node_nil] using he)
        simpa using this
      constructor
      · refine sorted_of_all_eq d _ ?_
        intro x hx
        rcases List.mem_map.mp hx with ⟨e, he, hx2⟩
        rw [← hx2]; exact hall e he
      · intro e he
        rw [hall e he]
  | cons b bs ih =>
    intro t d hinv
    cases t with
    | nil => simp [collectPath]
    | node l r rs =>
      have hall : ∀ e ∈ rs, e.prefix_len = d := by
        intro e he
        have := hinv [] e (by simpa [routesAt_node_nil] using he)
        simpa using this
      have hchild : ∀ q e, e ∈ routesAt (if b then r else l) q →
          e.prefix_len = (d + 1) + q.length := by
        intro q e he
        have := hinv (b :: q) e (by rw [routesAt_node_cons]; exact he)
        simp at this
        omega
      rcases ih (if b then r else l) (d + 1) hchild with ⟨hsort, hbound⟩
      constructor
      · rw [collectPath, List.map_append]
        refine List.pairwise_append.mpr ⟨?_, hsort, ?_⟩
        · refine sorted_of_all_eq d _ ?_
          intro x hx
          rcases List.mem_map.mp hx with ⟨e, he, hx2⟩
          rw [← hx2]; exact hall e he
        · intro x hx y hy
          rcases List.mem_map.mp hx with ⟨e, he, hx2⟩
          rcases List.mem_map.mp hy with ⟨e2, he2, hy2⟩
          rw [← hx2, ← hy2, hall e he]
          have := hbound e2 he2
          omega
      · intro e he
        rw [collectPath] at he
        rcases List.mem_append.mp he with h1 | h2
        · rw [hall e h1]
        · have := hbound e h2
          omega

theorem collectPath_eq_pathEntriesSpec :
    ∀ (bits : List Bool) (t : RTree), collectPath t bits = pathEntriesSpec t bits := by
  intro bits
  induction bits with
  | nil =>
    intro t
    cases t <;> simp [collectPath, pathNodes, pathEntriesSpec, RTree.routes]
  | cons b bs ih =>
    intro t
    cases t with
    | nil => simp [collectPath, pathNodes, pathEntriesSpec]
    | node l r rs =>
      simp [collectPath, pathNodes, pathEntriesSpec, RTree.routes] at ih ⊢
      exact ih (if b then r else l)

theorem routeLe_refl (e : RouteInfo) : routeLe e e := by
  unfold routeLe; omega

theorem sortRoutes_min (l : List RouteInfo) (b : RouteInfo) (rest : List RouteInfo)
    (h : sortRoutes l = b :: rest) : b ∈ l ∧ ∀ e ∈ l, routeLe b e := by
  have hperm := List.perm_insertionSort routeLe l
  have hsorted := List.sorted_insertionSort routeLe l
  rw [sortRoutes] at h
  rw [h] at hperm hsorted
  constructor
  · exact hperm.subset (List.mem_cons_self b rest)
  · intro e he
    have he2 : e ∈ b :: rest := hperm.symm.subset he
    rcases List.mem_cons.mp he2 with he3 | he3
    · rw [he3]; exact routeLe_refl b
    · exact List.rel_of_sorted_cons hsorted e he3

theorem sortRoutes_ne_nil (l : List RouteInfo) (hne : l ≠ []) :
    sortRoutes l ≠ [] := by
  intro hcon
  have hperm := List.perm_insertionSort routeLe l
  rw [sortRoutes] at hcon
  rw [hcon] at hperm
  exact hne hperm.symm.eq_nil

theorem hexVal_lt (c : Char) (d : Nat) (h : hexVal c = some d) : d < 16 := by
  unfold hexVal at h
  split at h
  · injection h with h; omega
  · split at h
    · injection h with h; omega
    · split at h
      · injection h with h; omega
      · exact absurd h (by simp)

theorem parseHexDigits_lt :
    ∀ (cs : List Char) (acc n : Nat), parseHexDigits cs acc = some n →
      n < (acc + 1) * 16 ^ cs.length := by
  intro cs
  induction cs with
  | nil =>
    intro acc n h
    injection h with h
    simp [← h]
  | cons c cs ih =>
    intro acc n h
    unfold parseHexDigits at h
    rcases hc : hexVal c with _ | d
    · rw [hc] at h; exact absurd h (by simp)
    · rw [hc] at h
      have hd := hexVal_lt c d hc
      have := ih (acc * 16 + d) n h
      have hle : (acc * 16 + d + 1) * 16 ^ cs.length ≤ (acc + 1) * 16 ^ (c :: cs).length := by
        have h1 : acc * 16 + d + 1 ≤ (acc + 1) * 16 := by omega
        calc (acc * 16 + d + 1) * 16 ^ cs.length
            ≤ ((acc + 1) * 16) * 16 ^ cs.length :=
              Nat.mul_le_mul_right _ h1
          _ = (acc + 1) * 16 ^ (c :: cs).length := by
              rw [List.length_cons, pow_succ]; ring
      omega

theorem parseHextet_lt (cs : List Char) (g : Nat) (h : parseHextet cs = some g) :
    g < 65536 := by
  unfold parseHextet at h
  split at h
  · exact absurd h (by simp)
  · rename_i hlen
    push_neg at hlen
    have hb := parseHexDigits_lt cs 0 g h
    have hpow : (16 : Nat) ^ cs.length ≤ 16 ^ 4 := Nat.pow_le_pow_right (by omega) hlen.2
    simp at hb
    omega

theorem parseHextets_mem_lt :
    ∀ (ss : List (List Char)) (gs : List Nat), parseHextets ss = some gs →
      ∀ g ∈ gs, g < 65536 := by
  intro ss
  induction ss with
  | nil =>
    intro gs h g hg
    injection h with h
    rw [← h] at hg
    simp at hg
  | cons s ss ih =>
    intro gs h g hg
    unfold parseHextets at h
    rcases h1 : parseHextet s with _ | g1
    · rw [h1] at h; exact absurd h (by simp)
    · rw [h1] at h
      rcases h2 : parseHextets ss with _ | gs1
      · rw [h2] at h; exact absurd h (by simp)
      · rw [h2] at h
        injection h with h
        rw [← h] at hg
        rcases List.mem_cons.mp hg with hg1 | hg1
        · rw [hg1]; exact parseHextet_lt s g1 h1
        · exact ih gs1 h2 g hg1

theorem groupsVal_lt_aux :
    ∀ (gs : List Nat) (acc : Nat), (∀ g ∈ gs, g < 65536) →
      gs.foldl (fun a g => a * 65536 + g) acc < (acc + 1) * 65536 ^ gs.length := by
  intro gs
  induction gs with
  | nil => intro acc _; simp
  | cons g gs ih =>
    intro acc hmem
    have hg : g < 65536 := hmem g (List.mem_cons_self g gs)
    have := ih (acc * 65536 + g) (fun x hx => hmem x (List.mem_cons_of_mem g hx))
    have hle : (acc * 65536 + g + 1) * 65536 ^ gs.length ≤
        (acc + 1) * 65536 ^ (g :: gs).length := by
      have h1 : acc * 65536 + g + 1 ≤ (acc + 1) * 65536 := by omega
      calc (acc * 65536 + g + 1) * 65536 ^ gs.length
          ≤ ((acc + 1) * 65536) * 65536 ^ gs.length := Nat.mul_le_mul_right _ h1
        _ = (acc + 1) * 65536 ^ (g :: gs).length := by
            rw [List.length_cons, pow_succ]; ring
    simp only [List.foldl_cons]
    omega

theorem groupsVal_lt (gs : List Nat) (h8 : gs.length = 8)
    (hmem : ∀ g ∈ gs, g < 65536) : groupsVal gs < 2 ^ 128 := by
  have := groupsVal_lt_aux gs 0 hmem
  rw [h8] at this
  unfold groupsVal
  have heq : (0 + 1) * 65536 ^ 8 = 2 ^ 128 := by norm_num
  omega

theorem parseIPv6_lt (cs : List Char) (a : Nat) (h : parseIPv6 cs = some a) :
    a < 2 ^ 128 := by
  unfold parseIPv6 at h
  rcases hsp : splitOnColonColon cs with _ | ⟨t, rest⟩ <;> rw [hsp] at h
  · simp at h
  · rcases rest with _ | ⟨r, rest2⟩
    · rcases hps : parseHextets (splitOnChar ':' t) with _ | gs <;> simp only [hps] at h
      · exact absurd h (by simp)
      · by_cases h8 : gs.length = 8
        · rw [if_pos h8] at h
          injection h with h
          rw [← h]
          exact groupsVal_lt gs h8 (parseHextets_mem_lt _ _ hps)
        · rw [if_neg h8] at h; exact absurd h (by simp)
    · rcases rest2 with _ | _
      · rcases hl : splitGroups t with _ | gl <;>
          rcases hr : splitGroups r with _ | gr <;> simp only [hl, hr] at h
        · exact absurd h (by simp)
        · exact absurd h (by simp)
        · exact absurd h (by simp)
        · by_cases h7 : gl.length + gr.length ≤ 7
          · rw [if_pos h7] at h
            injection h with h
            rw [← h]
            have hmeml : ∀ g ∈ gl, g < 65536 := by
              unfold splitGroups at hl
              split at hl
              · injection hl with hl; rw [← hl]; simp
              · exact parseHextets_mem_lt _ _ hl
            have hmemr : ∀ g ∈ gr, g < 65536 := by
              unfold splitGroups at hr
              split at hr
              · injection hr with hr; rw [← hr]; simp
              · exact parseHextets_mem_lt _ _ hr
            refine groupsVal_lt _ ?_ ?_
            · simp
              omega
            · intro g hg
              rcases List.mem_append.mp hg with h1 | h2
              · rcases List.mem_append.mp h1 with h3 | h4
                · exact hmeml g h3
                · have := List.eq_of_mem_replicate h4
                  omega
              · exact hmemr g h2
          · rw [if_neg h7] at h; exact absurd h (by simp)
      · simp at h

theorem parseOctet_le (cs : List Char) (n : Nat) (h : parseOctet cs = some n) :
    n ≤ 255 := by
  unfold parseOctet at h
  split at h
  · exact absurd h (by simp)
  · split at h
    · exact absurd h (by simp)
    · split at h
      · exact absurd h (by simp)
      · split at h
        · split at h
          · injection h with h; omega
          · exact absurd h (by simp)
        · exact absurd h (by simp)

theorem parseIPv4_lt (cs : List Char) (a : Nat) (h : parseIPv4 cs = some a) :
    a < 2 ^ 32 := by
  unfold parseIPv4 at h
  rcases hsp : splitOnChar '.' cs with _ | ⟨p1, r1⟩ <;> rw [hsp] at h
  · simp at h
  · rcases r1 with _ | ⟨p2, r2⟩
    · simp at h
    · rcases r2 with _ | ⟨p3, r3⟩
      · simp at h
      · rcases r3 with _ | ⟨p4, r4⟩
        · simp at h
        · rcases r4 with _ | _
          · rcases h1 : parseOctet p1 with _ | w <;> simp only [h1] at h
            · exact absurd h (by simp)
            rcases h2 : parseOctet p2 with _ | x <;> simp only [h2] at h
            · exact absurd h (by simp)
            rcases h3 : parseOctet p3 with _ | y <;> simp only [h3] at h
            · exact absurd h (by simp)
            rcases h4 : parseOctet p4 with _ | z <;> simp only [h4] at h
            · exact absurd h (by simp)
            injection h with h
            have hw := parseOctet_le p1 w h1
            have hx := parseOctet_le p2 x h2
            have hy := parseOctet_le p3 y h3
            have hz := parseOctet_le p4 z h4
            omega
          · simp at h

theorem ipAddrChars_sound (cs : List Char) (v a : Nat)
    (h : ipAddrChars cs = some (v, a)) :
    (v = 4 ∧ a < 2 ^ 32) ∨ (v = 6 ∧ a < 2 ^ 128) := by
  unfold ipAddrChars at h
  rcases h4 : parseIPv4 cs with _ | a4 <;> rw [h4] at h
  · rcases h6 : parseIPv6 cs with _ | a6 <;> rw [h6] at h
    · exact absurd h (by simp)
    · injection h with h
      injection h with h1 h2
      right
      exact ⟨h1.symm, h2 ▸ parseIPv6_lt cs a6 h6⟩
  · injection h with h
    injection h with h1 h2
    left
    exact ⟨h1.symm, h2 ▸ parseIPv4_lt cs a4 h4⟩

/-- Soundness of the strict network parser: family is 4 or 6, the address is
in range, the prefix length is in range, and the host bits are zero. -/
theorem ip_network_sound (s : String) (net : IpNet) (h : ip_network s = some net) :
    (net.version = 4 ∨ net.version = 6) ∧ net.addr < 2 ^ maxBitsOf net.version ∧
      net.plen ≤ maxBitsOf net.version ∧
      net.addr % 2 ^ (maxBitsOf net.version - net.plen) = 0 := by
  unfold ip_network at h
  rcases hsp : splitOnChar '/' s.data with _ | ⟨p1, r1⟩ <;> rw [hsp] at h
  · simp at h
  · rcases r1 with _ | ⟨p2, r2⟩
    · rcases ha : ipAddrChars p1 with _ | va <;> simp only [ha] at h
      · exact absurd h (by simp)
      · rcases va with ⟨v, a⟩
        injection h with h
        rcases ipAddrChars_sound p1 v a ha with ⟨h1, h2⟩ | ⟨h1, h2⟩ <;>
          · subst h
            simp [maxBitsOf, h1]
            omega
    · rcases r2 with _ | _
      · rcases ha : ipAddrChars p1 with _ | va <;> simp only [ha] at h
        · exact absurd h (by simp)
        · rcases hl : parseDigits p2 with _ | len <;> simp only [hl] at h
          · exact absurd h (by simp)
          · rcases va with ⟨v, a⟩
            split at h
            · rename_i hcond
              injection h with h
              rcases ipAddrChars_sound p1 v a ha with ⟨h1, h2⟩ | ⟨h1, h2⟩ <;>
                · subst h
                  simp only at hcond ⊢
                  refine ⟨by simp [h1], by simpa [maxBitsOf, h1] using h2,
                    hcond.1, hcond.2⟩
            · exact absurd h (by simp)
      · simp at h

theorem listPfx_iff : ∀ (xs ys : List Bool), listPfx xs ys = true ↔ xs <+: ys := by
  intro xs
  induction xs with
  | nil => intro ys; simp [listPfx]
  | cons x xs ih =>
    intro ys
    cases ys with
    | nil => simp [listPfx]
    | cons y ys =>
      rw [listPfx]
      constructor
      · intro h
        simp at h
        rcases h with ⟨h1, h2⟩
        subst h1
        exact (List.prefix_cons_inj x).mpr ((ih ys).mp h2)
      · intro h
        rcases h with ⟨t, ht⟩
        injection ht with h1 h2
        subst h1
        simp
        exact (ih ys).mpr ⟨t, h2⟩

theorem listPfx_self_append (p q : List Bool) : listPfx p (p ++ q) = true :=
  (listPfx_iff p (p ++ q)).mpr (List.prefix_append p q)

theorem testBit_high_eq (a b W la : Nat) (ha : a < 2 ^ W) (hb : b < 2 ^ W)
    (hla : la ≤ W) :
    (∀ i, i < la → a.testBit (W - 1 - i) = b.testBit (W - 1 - i)) ↔
      a / 2 ^ (W - la) = b / 2 ^ (W - la) := by
  constructor
  · intro h
    rw [← Nat.shiftRight_eq_div_pow, ← Nat.shiftRight_eq_div_pow]
    refine Nat.eq_of_testBit_eq ?_
    intro j
    rw [Nat.testBit_shiftRight, Nat.testBit_shiftRight]
    by_cases hj : j < la
    · have hi : W - la + j = W - 1 - (la - 1 - j) := by omega
      rw [hi]
      exact h (la - 1 - j) (by omega)
    · have hW : W ≤ W - la + j := by omega
      rw [Nat.testBit_eq_false_of_lt
          (lt_of_lt_of_le ha (Nat.pow_le_pow_right (by omega) hW)),
        Nat.testBit_eq_false_of_lt
          (lt_of_lt_of_le hb (Nat.pow_le_pow_right (by omega) hW))]
  · intro h i hi
    have h1 : W - 1 - i = (W - la) + (la - 1 - i) := by omega
    have ha2 : a.testBit (W - 1 - i) = (a >>> (W - la)).testBit (la - 1 - i) := by
      rw [Nat.testBit_shiftRight, ← h1]
    have hb2 : b.testBit (W - 1 - i) = (b >>> (W - la)).testBit (la - 1 - i) := by
      rw [Nat.testBit_shiftRight, ← h1]
    rw [ha2, hb2, Nat.shiftRight_eq_div_pow, Nat.shiftRight_eq_div_pow, h]

theorem pathBits_eq_iff (a b W la : Nat) (ha : a < 2 ^ W) (hb : b < 2 ^ W)
    (hla : la ≤ W) :
    pathBits a W la = pathBits b W la ↔ a / 2 ^ (W - la) = b / 2 ^ (W - la) := by
  rw [← testBit_high_eq a b W la ha hb hla]
  unfold pathBits
  rw [List.map_eq_map_iff]
  constructor
  · intro h i hi
    exact h i (List.mem_range.mpr hi)
  · intro h i hi
    exact h i (List.mem_range.mp hi)

theorem listPfx_pathBits_iff (a b W la lb : Nat) (ha : a < 2 ^ W) (hb : b < 2 ^ W)
    (hla : la ≤ W) (hlb : lb ≤ W) :
    listPfx (pathBits a W la) (pathBits b W lb) = true ↔
      la ≤ lb ∧ a / 2 ^ (W - la) = b / 2 ^ (W - la) := by
  rw [listPfx_iff]
  constructor
  · intro h
    have hlen : la ≤ lb := by
      have := h.length_le
      simpa [pathBits_length] using this
    refine ⟨hlen, ?_⟩
    rw [← pathBits_eq_iff a b W la ha hb hla]
    have := List.prefix_iff_eq_take.mp h
    rw [pathBits_length] at this
    rw [this]
    unfold pathBits
    rw [← List.map_take, List.take_range, inf_eq_left.mpr hlen]
  · intro ⟨hlen, hdiv⟩
    rw [List.prefix_iff_eq_take, pathBits_length]
    have : List.take la (pathBits b W lb) = pathBits b W la := by
      unfold pathBits
      rw [← List.map_take, List.take_range, inf_eq_left.mpr hlen]
    rw [this]
    exact (pathBits_eq_iff a b W la ha hb hla).mpr hdiv

theorem subnet_interval_iff (W la lb p r : Nat) (hla : la ≤ W) (hle : la ≤ lb)
    (hlb : lb ≤ W) (hp : p % 2 ^ (W - la) = 0) (hr : r % 2 ^ (W - lb) = 0) :
    (p ≤ r ∧ r + 2 ^ (W - lb) - 1 ≤ p + 2 ^ (W - la) - 1) ↔
      r / 2 ^ (W - la) = p / 2 ^ (W - la) := by
  have hm1 : (0 : Nat) < 2 ^ (W - lb) := pow_pos (by omega) _
  have hk1 : (0 : Nat) < 2 ^ (W - la) := pow_pos (by omega) _
  have hdvdk : 2 ^ (W - la) ∣ p := Nat.dvd_of_mod_eq_zero hp
  have hdvdm : 2 ^ (W - lb) ∣ r := Nat.dvd_of_mod_eq_zero hr
  have hmk : 2 ^ (W - lb) ∣ 2 ^ (W - la) := pow_dvd_pow 2 (by omega)
  have hpd : p / 2 ^ (W - la) * 2 ^ (W - la) = p := Nat.div_mul_cancel hdvdk
  constructor
  · intro ⟨h1, h2⟩
    have h2b : r + 2 ^ (W - lb) ≤ p + 2 ^ (W - la) := by omega
    refine Nat.div_eq_of_lt_le ?_ ?_
    · calc p / 2 ^ (W - la) * 2 ^ (W - la) = p := hpd
        _ ≤ r := h1
    · calc r < r + 2 ^ (W - lb) := by omega
        _ ≤ p + 2 ^ (W - la) := h2b
        _ = (p / 2 ^ (W - la) + 1) * 2 ^ (W - la) := by
            rw [Nat.add_mul, one_mul, hpd]
  · intro h
    have hrsplit : r / 2 ^ (W - la) * 2 ^ (W - la) + r % 2 ^ (W - la) = r := by
      rw [Nat.mul_comm]
      exact Nat.div_add_mod r (2 ^ (W - la))
    have hmodlt : r % 2 ^ (W - la) < 2 ^ (W - la) := Nat.mod_lt _ hk1
    have hdvdmod : 2 ^ (W - lb) ∣ r % 2 ^ (W - la) :=
      (Nat.dvd_mod_iff hmk).mpr hdvdm
    have hbound : r % 2 ^ (W - la) + 2 ^ (W - lb) ≤ 2 ^ (W - la) := by
      rcases hdvdmod with ⟨c, hc⟩
      rcases hmk with ⟨d, hd⟩
      rw [hc]
      rw [hc, hd] at hmodlt
      have hdpos : 0 < d := by
        rcases Nat.eq_zero_or_pos d with h0 | h0
        · rw [h0, Nat.mul_zero] at hd
          omega
        · exact h0
      have hcd : c < d := by
        by_contra hcon
        push_neg at hcon
        exact absurd (Nat.mul_le_mul_left (2 ^ (W - lb)) hcon) (by omega)
      calc 2 ^ (W - lb) * c + 2 ^ (W - lb) = 2 ^ (W - lb) * (c + 1) := by ring
        _ ≤ 2 ^ (W - lb) * d := Nat.mul_le_mul_left _ (by omega)
        _ = 2 ^ (W - la) := hd.symm
    constructor
    · calc p = p / 2 ^ (W - la) * 2 ^ (W - la) := hpd.symm
        _ = r / 2 ^ (W - la) * 2 ^ (W - la) := by rw [h]
        _ ≤ r := Nat.div_mul_le_self r _
    · have : r + 2 ^ (W - lb) ≤ p + 2 ^ (W - la) := by
        calc r + 2 ^ (W - lb)
            = r / 2 ^ (W - la) * 2 ^ (W - la) + (r % 2 ^ (W - la) + 2 ^ (W - lb)) := by
              omega
          _ ≤ r / 2 ^ (W - la) * 2 ^ (W - la) + 2 ^ (W - la) := by omega
          _ = p / 2 ^ (W - la) * 2 ^ (W - la) + 2 ^ (W - la) := by rw [h]
          _ = p + 2 ^ (W - la) := by rw [hpd]
      omega

/-- C1: for every query address whose lookup yields a non-empty candidate
set, the route `cached_radix_lookup` returns as best is a minimum of the
candidates under the lexicographic key `(-prefix_len, metric, nhn)`:
longest prefix first, then smaller metric, then smaller numeric next hop. -/
theorem c1_best_route_is_minimum (t : RadixTree) (ip : String)
    (l : List RouteInfo) (hl : t.lookup ip = some l) (hne : l ≠ []) :
    ∃ b rest, sortRoutes l = b :: rest ∧
      cached_radix_lookup t ip = some (b.prefix_str, b.next_hop, b.metric) ∧
      b ∈ l ∧ ∀ e ∈ l, routeLe b e := by
  rcases hsr : sortRoutes l with _ | ⟨b, rest⟩
  · exact absurd hsr (sortRoutes_ne_nil l hne)
  · rcases sortRoutes_min l b rest hsr with ⟨hmem, hmin⟩
    refine ⟨b, rest, rfl, ?_, hmem, hmin⟩
    unfold cached_radix_lookup
    rw [hl]
    simp only [hsr]

/-- Witness for C1 at the next-hop tie-break fixture (spec scenario 5). -/
theorem c1_best_route_is_minimum_witness :
    ∃ b rest, sortRoutes tieLookup = b :: rest ∧
      cached_radix_lookup tieTree "192.168.1.1" =
        some (b.prefix_str, b.next_hop, b.metric) ∧
      b ∈ tieLookup ∧ ∀ e ∈ tieLookup, routeLe b e :=
  c1_best_route_is_minimum tieTree "192.168.1.1" tieLookup (by rfl) (by decide)

/-- C3 counterexample: the parser is strict, so a CIDR text with non-zero
host bits (here `192.168.1.1/24`) is rejected, not masked: `ip_network`
raises (`none`) and `insert` fails rather than storing a masked network. -/
theorem c3_host_bits_counterexample :
    ip_network "192.168.1.1/24" = none ∧
      RadixTree.insert RadixTree.empty "192.168.1.1/24" "10.0.0.1" 100 = none := by
  constructor <;> rfl

/-- C3 (amended): for every CIDR string whose host bits below the prefix
length are non-zero, the parser rejects the string (Python
`ip_network(..., strict=True)` raises "has host bits set"), so insert and
update fail with `InvalidPrefix` instead of canonicalising by masking. -/
theorem c3_host_bits_rejected (s : String) (aChars lChars : List Char)
    (v x len : Nat) (t : RadixTree) (nh : String) (m : Nat)
    (hs : splitOnChar '/' s.data = [aChars, lChars])
    (hip : ipAddrChars aChars = some (v, x))
    (hlen : parseDigits lChars = some len)
    (hle : len ≤ maxBitsOf v)
    (hhost : x % 2 ^ (maxBitsOf v - len) ≠ 0) :
    ip_network s = none ∧
      (∀ m2, RadixTree.insert t s nh m2 = none) ∧
      ∀ matchd, RadixTree.update_metric t s nh m matchd = none := by
  have hcond : ¬ (len ≤ maxBitsOf v ∧ x % 2 ^ (maxBitsOf v - len) = 0) :=
    fun hcon => hhost hcon.2
  have hn : ip_network s = none := by
    unfold ip_network
    rw [hs]
    simp [hip, hlen, hcond]
  refine ⟨hn, ?_, ?_⟩
  · intro m2
    unfold RadixTree.insert
    rw [hn]
  · intro matchd
    unfold RadixTree.update_metric
    rw [hn]

/-- Witness for the amended C3 at the concrete input `192.168.1.1/24`. -/
theorem c3_host_bits_rejected_witness :
    ip_network "192.168.1.1/24" = none ∧
      (∀ m2, RadixTree.insert RadixTree.empty "192.168.1.1/24" "10.0.0.1" m2 = none) ∧
      ∀ matchd,
        RadixTree.update_metric RadixTree.empty "192.168.1.1/24" "10.0.0.1" 100 matchd =
          none :=
  c3_host_bits_rejected "192.168.1.1/24"
    [ '1', '9', '2', '.', '1', '6', '8', '.', '1', '.', '1'] [ '2', '4']
    4 3232235777 24 RadixTree.empty "10.0.0.1" 100
    (by rfl) (by rfl) (by rfl) (by decide) (by decide)

/-- C4 counterexample: a CSV row whose next hop does not parse as an IP
(`abc` on a v4-prefix row) is not accepted by loading: `prep_df`'s
`ipv4_to_int` raises `ValueError` on `int("abc")`, aborting startup. -/
theorem c4_load_counterexample :
    ip_address "abc" = none ∧
      prep_df [mkRow "10.0.0.0/8" "abc"] = none := by
  constructor <;> rfl

/-- C4 (amended): for a CSV row whose next hop does not parse as an IP, the
radix-tree insert itself still accepts the route — the textual next hop is
preserved verbatim and the numeric tie-breaker `nhn` is 0 — but loading as
a whole accepts the row only if `prep_df`'s numeric next-hop conversion
also succeeds; otherwise startup aborts. -/
theorem c4_insert_tolerates_bad_next_hop (t : RadixTree) (pfx nh : String)
    (m : Nat) (net : IpNet) (hp : ip_network pfx = some net)
    (hnh : ip_address nh = none) :
    ∃ t2, t.insert pfx nh m = some t2 ∧
      t2.route_count = t.route_count + 1 ∧
      routesAt (rootSel t2 (net.version == 4))
          (pathBits net.addr (maxBitsOf net.version) net.plen) =
        routesAt (rootSel t (net.version == 4))
            (pathBits net.addr (maxBitsOf net.version) net.plen) ++
          [{ prefix_str := pfx, next_hop := nh, metric := m,
             prefix_len := net.plen, version := net.version, nhn := 0 }] := by
  have hmk : mkRoute pfx nh m net =
      { prefix_str := pfx, next_hop := nh, metric := m,
        prefix_len := net.plen, version := net.version, nhn := 0 } := by
    unfold mkRoute
    rw [hnh]
  simp only [RadixTree.insert, hp]
  by_cases hv : net.version = 4
  · rw [if_pos hv]
    refine ⟨_, rfl, rfl, ?_⟩
    simp only [rootSel, hv]
    simp [routesAt_insertAt, hmk, hv]
  · rw [if_neg hv]
    refine ⟨_, rfl, rfl, ?_⟩
    have hv2 : (net.version == 4) = false := by
      simp [hv]
    simp only [rootSel, hv2]
    simp [routesAt_insertAt, hmk]

/-- Witness for the amended C4: inserting a route with next hop `abc`. -/
theorem c4_insert_tolerates_bad_next_hop_witness :
    ∃ t2, RadixTree.empty.insert "10.0.0.0/8" "abc" 32768 = some t2 ∧
      t2.route_count = RadixTree.empty.route_count + 1 ∧
      routesAt (rootSel t2 ((IpNet.mk 4 0x0A000000 8).version == 4))
          (pathBits 0x0A000000 (maxBitsOf 4) 8) =
        routesAt (rootSel RadixTree.empty ((IpNet.mk 4 0x0A000000 8).version == 4))
            (pathBits 0x0A000000 (maxBitsOf 4) 8) ++
          [{ prefix_str := "10.0.0.0/8", next_hop := "abc", metric := 32768,
             prefix_len := 8, version := 4, nhn := 0 }] :=
  c4_insert_tolerates_bad_next_hop RadixTree.empty "10.0.0.0/8" "abc" 32768
    ⟨4, 0x0A000000, 8⟩ (by rfl) (by rfl)

/-- C7: for a valid prefix whose trie path is incomplete (some child on the
walk is absent), `update_metric` returns 0 in either mode, is not an
error, and leaves the tree — hence every entry's metric — unchanged. -/
theorem c7_missing_path_updates_nothing (t : RadixTree) (pfx nh : String)
    (m : Nat) (matchd : String) (net : IpNet)
    (hp : ip_network pfx = some net)
    (hnav : navigateTo (rootSel t (net.version == 4))
        (pathBits net.addr (maxBitsOf net.version) net.plen) = none) :
    t.update_metric pfx nh m matchd = some (t, 0) := by
  have hsub : (rootSel t (net.version == 4)).subtree
      (pathBits net.addr (maxBitsOf net.version) net.plen) = .nil := by
    by_cases hn : (rootSel t (net.version == 4)).subtree
        (pathBits net.addr (maxBitsOf net.version) net.plen) = .nil
    · exact hn
    · rw [navigateTo_eq, if_neg hn] at hnav
      exact absurd hnav (by simp)
  simp only [RadixTree.update_metric, hp, updateMetricNet]
  by_cases hv : net.version = 4
  · have hv2 : (net.version == 4) = true := by simp [hv]
    rw [rootSel, hv2, if_pos rfl] at hsub
    rw [if_pos hv]
    by_cases hm : matchd = "exact"
    · rw [if_pos hm, update_exact_eq, mapAtPath_of_subtree_nil _ _ _ hsub]
      rw [routesAt, hsub]
      rfl
    · rw [if_neg hm, update_orlonger_eq, mapBelowPath_of_subtree_nil _ _ _ hsub]
      rw [hsub]
      rfl
  · have hv2 : (net.version == 4) = false := by simp [hv]
    rw [rootSel, hv2] at hsub
    simp only [Bool.false_eq_true, if_false] at hsub
    rw [if_neg hv]
    by_cases hm : matchd = "exact"
    · rw [if_pos hm, update_exact_eq, mapAtPath_of_subtree_nil _ _ _ hsub]
      rw [routesAt, hsub]
      rfl
    · rw [if_neg hm, update_orlonger_eq, mapBelowPath_of_subtree_nil _ _ _ hsub]
      rw [hsub]
      rfl

/-- Witness for C7: updating `10.2.0.0/16` in the nested fixture, whose
path is absent, with both match modes. -/
theorem c7_missing_path_updates_nothing_witness :
    sampleTree.update_metric "10.2.0.0/16" "192.168.1.1" 50 "exact" =
        some (sampleTree, 0) ∧
      sampleTree.update_metric "10.2.0.0/16" "192.168.1.1" 50 "orlonger" =
        some (sampleTree, 0) :=
  ⟨c7_missing_path_updates_nothing sampleTree "10.2.0.0/16" "192.168.1.1" 50
      "exact" ⟨4, 0x0A020000, 16⟩ (by rfl) (by rfl),
    c7_missing_path_updates_nothing sampleTree "10.2.0.0/16" "192.168.1.1" 50
      "orlonger" ⟨4, 0x0A020000, 16⟩ (by rfl) (by rfl)⟩

theorem allRoutes_mapTreeRoutes_map (g : RouteInfo → RouteInfo) :
    ∀ (t : RTree),
      (mapTreeRoutes (fun rs => rs.map g) t).allRoutes = t.allRoutes.map g := by
  intro t
  induction t with
  | nil => rfl
  | node l r rs ihl ihr =>
    simp [mapTreeRoutes, RTree.allRoutes, ihl, ihr]

theorem subtree_mapBelowPath_self (f : List RouteInfo → List RouteInfo) :
    ∀ (p : List Bool) (t : RTree),
      (mapBelowPath t p f).subtree p = mapTreeRoutes f (t.subtree p) := by
  intro p
  induction p with
  | nil =>
    intro t
    cases t with
    | nil => simp [mapBelowPath, RTree.subtree, mapTreeRoutes]
    | node l r rs => simp [mapBelowPath, RTree.subtree, mapTreeRoutes]
  | cons b bs ih =>
    intro t
    cases t with
    | nil => simp [mapBelowPath, subtree_nil, mapTreeRoutes]
    | node l r rs =>
      cases b <;> simp [mapBelowPath, RTree.subtree, ih]

theorem mem_setMetricIf_metric (nh : String) (m : Nat) (l : List RouteInfo)
    (e : RouteInfo) (he : e ∈ setMetricIf (fun x => x.next_hop == nh) m l)
    (hnh : e.next_hop = nh) : e.metric = m := by
  unfold setMetricIf at he
  rcases List.mem_map.mp he with ⟨x, hx, hmap⟩
  by_cases hpx : (x.next_hop == nh) = true
  · rw [if_pos hpx] at hmap
    rw [← hmap]
  · rw [if_neg hpx] at hmap
    subst hmap
    exact absurd (beq_iff_eq.mpr hnh) hpx

/-- C5: `update_metric` in orlonger mode counts exactly the entries of the
subtree at the prefix node whose `next_hop` matches, rewrites exactly those
entries' metrics (every other path, the other family tree and the route
count are untouched), and afterwards every matching entry at depth ≥
`prefix_len` (i.e. in that subtree) carries the new metric. -/
theorem c5_orlonger_updates_subtree (t : RadixTree) (pfx nh : String)
    (m : Nat) (net : IpNet) (t2 : RadixTree) (c : Nat)
    (hp : ip_network pfx = some net)
    (hu : t.update_metric pfx nh m "orlonger" = some (t2, c)) :
    c = ((rootSel t (net.version == 4)).subtree
          (pathBits net.addr (maxBitsOf net.version) net.plen)).allRoutes.countP
          (fun e => e.next_hop == nh) ∧
    (∀ q, routesAt (rootSel t2 (net.version == 4)) q =
        if listPfx (pathBits net.addr (maxBitsOf net.version) net.plen) q then
          setMetricIf (fun e => e.next_hop == nh) m
            (routesAt (rootSel t (net.version == 4)) q)
        else routesAt (rootSel t (net.version == 4)) q) ∧
    (∀ e ∈ ((rootSel t2 (net.version == 4)).subtree
          (pathBits net.addr (maxBitsOf net.version) net.plen)).allRoutes,
        e.next_hop = nh → e.metric = m) ∧
    rootSel t2 (!(net.version == 4)) = rootSel t (!(net.version == 4)) ∧
    t2.route_count = t.route_count := by
  simp only [RadixTree.update_metric, hp, updateMetricNet] at hu
  by_cases hv : net.version = 4
  · rw [if_pos hv] at hu
    rw [if_neg (by decide : ¬ ("orlonger" = "exact"))] at hu
    rw [update_orlonger_eq] at hu
    injection hu with hu
    rw [Prod.mk.injEq] at hu
    obtain ⟨ht2, hc⟩ := hu
    have hv2 : (net.version == 4) = true := by simp [hv]
    have hroot2 : rootSel t2 (net.version == 4) =
        mapBelowPath t.ipv4_root
          (pathBits net.addr (maxBitsOf net.version) net.plen)
          (setMetricIf (fun e => e.next_hop == nh) m) := by
      rw [← ht2, rootSel, hv2, if_pos rfl]
    have hroot : rootSel t (net.version == 4) = t.ipv4_root := by
      rw [rootSel, hv2, if_pos rfl]
    refine ⟨?_, ?_, ?_, ?_, ?_⟩
    · rw [hroot, ← hc]
    · intro q
      rw [hroot2, hroot]
      exact routesAt_mapBelowPath _ (setMetricIf_nil _ _) _ _ q
    · intro e he hnh
      rw [hroot2, subtree_mapBelowPath_self] at he
      rw [show setMetricIf (fun e => e.next_hop == nh) m =
            fun rs => rs.map (fun e =>
              if e.next_hop == nh then { e with metric := m } else e) from rfl,
        allRoutes_mapTreeRoutes_map] at he
      exact mem_setMetricIf_metric nh m _ e he hnh
    · rw [← ht2, rootSel, rootSel, hv2]
      simp
    · rw [← ht2]
  · rw [if_neg hv] at hu
    rw [if_neg (by decide : ¬ ("orlonger" = "exact"))] at hu
    rw [update_orlonger_eq] at hu
    injection hu with hu
    rw [Prod.mk.injEq] at hu
    obtain ⟨ht2, hc⟩ := hu
    have hv2 : (net.version == 4) = false := by simp [hv]
    have hroot2 : rootSel t2 (net.version == 4) =
        mapBelowPath t.ipv6_root
          (pathBits net.addr (maxBitsOf net.version) net.plen)
          (setMetricIf (fun e => e.next_hop == nh) m) := by
      rw [← ht2, rootSel, hv2]
      simp
    have hroot : rootSel t (net.version == 4) = t.ipv6_root := by
      rw [rootSel, hv2]
      simp
    refine ⟨?_, ?_, ?_, ?_, ?_⟩
    · rw [hroot, ← hc]
    · intro q
      rw [hroot2, hroot]
      exact routesAt_mapBelowPath _ (setMetricIf_nil _ _) _ _ q
    · intro e he hnh
      rw [hroot2, subtree_mapBelowPath_self] at he
      rw [show setMetricIf (fun e => e.next_hop == nh) m =
            fun rs => rs.map (fun e =>
              if e.next_hop == nh then { e with metric := m } else e) from rfl,
        allRoutes_mapTreeRoutes_map] at he
      exact mem_setMetricIf_metric nh m _ e he hnh
    · rw [← ht2, rootSel, rootSel, hv2]
      simp
    · rw [← ht2]

/-- Witness for C5: the orlonger update of spec scenario 6 on the nested
fixture (`10.1.0.0/16 → 192.168.1.1 @ 50`). -/
theorem c5_orlonger_updates_subtree_witness :
    ∃ t2 c, sampleTree.update_metric "10.1.0.0/16" "192.168.1.1" 50 "orlonger" =
        some (t2, c) ∧
      (c = ((rootSel sampleTree ((IpNet.mk 4 0x0A010000 16).version == 4)).subtree
          (pathBits 0x0A010000 (maxBitsOf 4) 16)).allRoutes.countP
          (fun e => e.next_hop == "192.168.1.1") ∧ c = 2) := by
  refine ⟨_, _, rfl, ?_, by decide⟩
  have h := c5_orlonger_updates_subtree sampleTree "10.1.0.0/16" "192.168.1.1"
    50 ⟨4, 0x0A010000, 16⟩ _ _ (by rfl) rfl
  exact h.1

/-- C6: `update_metric` in exact mode changes only the entries at the
target node whose `next_hop` matches and whose stored prefix text equals
the canonical prefix text; every other node's entry list (in particular
every node at strictly greater depth), the trie shape, the other family
tree and `route_count` are unchanged, and the count is the number of
matching entries at the target node. -/
theorem c6_exact_update_frame (t : RadixTree) (pfx nh : String) (m : Nat)
    (net : IpNet) (t2 : RadixTree) (c : Nat)
    (hp : ip_network pfx = some net)
    (hu : t.update_metric pfx nh m "exact" = some (t2, c)) :
    c = (routesAt (rootSel t (net.version == 4))
          (pathBits net.addr (maxBitsOf net.version) net.plen)).countP
          (fun e => e.next_hop == nh && e.prefix_str == net.with_prefixlen) ∧
    (∀ q, routesAt (rootSel t2 (net.version == 4)) q =
        if q = pathBits net.addr (maxBitsOf net.version) net.plen then
          setMetricIf
            (fun e => e.next_hop == nh && e.prefix_str == net.with_prefixlen) m
            (routesAt (rootSel t (net.version == 4)) q)
        else routesAt (rootSel t (net.version == 4)) q) ∧
    (rootSel t2 (net.version == 4)).shape = (rootSel t (net.version == 4)).shape ∧
    rootSel t2 (!(net.version == 4)) = rootSel t (!(net.version == 4)) ∧
    t2.route_count = t.route_count := by
  simp only [RadixTree.update_metric, hp, updateMetricNet] at hu
  by_cases hv : net.version = 4
  · rw [if_pos hv] at hu
    simp only [if_true] at hu
    rw [update_exact_eq] at hu
    injection hu with hu
    rw [Prod.mk.injEq] at hu
    obtain ⟨ht2, hc⟩ := hu
    have hv2 : (net.version == 4) = true := by simp [hv]
    have hroot2 : rootSel t2 (net.version == 4) =
        mapAtPath t.ipv4_root (pathBits net.addr (maxBitsOf net.version) net.plen)
          (setMetricIf
            (fun e => e.next_hop == nh && e.prefix_str == net.with_prefixlen) m) := by
      rw [← ht2, rootSel, hv2, if_pos rfl]
    have hroot : rootSel t (net.version == 4) = t.ipv4_root := by
      rw [rootSel, hv2, if_pos rfl]
    refine ⟨?_, ?_, ?_, ?_, ?_⟩
    · rw [hroot, ← hc]
    · intro q
      rw [hroot2, hroot]
      exact routesAt_mapAtPath _ (setMetricIf_nil _ _) _ _ q
    · rw [hroot2, hroot]
      exact shape_mapAtPath _ _ _
    · rw [← ht2, rootSel, rootSel, hv2]
      simp
    · rw [← ht2]
  · rw [if_neg hv] at hu
    simp only [if_true] at hu
    rw [update_exact_eq] at hu
    injection hu with hu
    rw [Prod.mk.injEq] at hu
    obtain ⟨ht2, hc⟩ := hu
    have hv2 : (net.version == 4) = false := by simp [hv]
    have hroot2 : rootSel t2 (net.version == 4) =
        mapAtPath t.ipv6_root (pathBits net.addr (maxBitsOf net.version) net.plen)
          (setMetricIf
            (fun e => e.next_hop == nh && e.prefix_str == net.with_prefixlen) m) := by
      rw [← ht2, rootSel, hv2]
      simp
    have hroot : rootSel t (net.version == 4) = t.ipv6_root := by
      rw [rootSel, hv2]
      simp
    refine ⟨?_, ?_, ?_, ?_, ?_⟩
    · rw [hroot, ← hc]
    · intro q
      rw [hroot2, hroot]
      exact routesAt_mapAtPath _ (setMetricIf_nil _ _) _ _ q
    · rw [hroot2, hroot]
      exact shape_mapAtPath _ _ _
    · rw [← ht2, rootSel, rootSel, hv2]
      simp
    · rw [← ht2]

/-- Witness for C6: the exact update of spec scenario 7 on the nested
fixture updates exactly one entry and no deeper node. -/
theorem c6_exact_update_frame_witness :
    ∃ t2 c, sampleTree.update_metric "10.1.0.0/16" "192.168.1.1" 50 "exact" =
        some (t2, c) ∧
      (c = (routesAt (rootSel sampleTree ((IpNet.mk 4 0x0A010000 16).version == 4))
            (pathBits 0x0A010000 (maxBitsOf 4) 16)).countP
            (fun e => e.next_hop == "192.168.1.1" &&
              e.prefix_str == (IpNet.mk 4 0x0A010000 16).with_prefixlen) ∧ c = 1) := by
  refine ⟨_, _, rfl, ?_, by decide⟩
  have h := c6_exact_update_frame sampleTree "10.1.0.0/16" "192.168.1.1"
    50 ⟨4, 0x0A010000, 16⟩ _ _ (by rfl) rfl
  exact h.1

theorem routesAt_empty (four : Bool) (q : List Bool) :
    routesAt (rootSel RadixTree.empty four) q = [] := by
  cases four <;>
    · cases q with
      | nil => rfl
      | cons c qs =>
        cases c <;> simp [rootSel, RadixTree.empty, routesAt_node_cons, routesAt_nil]

/-- C2: for every address, `lookup` returns exactly the entries attached at
the nodes on the walk from the family root along the address bits, root
first, stopping at the first absent child; on a tree built by the loader
the returned list is ordered by non-decreasing `prefix_len` (equal to node
depth). -/
theorem c2_lookup_is_ordered_path (rows : List Row) (t : RadixTree)
    (hb : build_radix_tree rows = some t) (ip : String) (v a : Nat)
    (hip : ip_address ip = some (v, a)) (l : List RouteInfo)
    (hl : t.lookup ip = some l) :
    l = pathEntriesSpec (rootSel t (v == 4))
        (pathBits a (maxBitsOf v) (maxBitsOf v)) ∧
    (l.map RouteInfo.prefix_len).Sorted (· ≤ ·) := by
  unfold RadixTree.lookup at hl
  rw [hip] at hl
  simp only [Option.some.injEq] at hl
  have hroot : (if v = 4 then t.ipv4_root else t.ipv6_root) = rootSel t (v == 4) := by
    by_cases hv : v = 4
    · have : (v == 4) = true := by simp [hv]
      rw [if_pos hv, rootSel, this, if_pos rfl]
    · have : (v == 4) = false := by simp [hv]
      rw [if_neg hv, rootSel, this]
      simp
  rw [hroot] at hl
  have hinv := buildFrom_depth (v == 4) rows RadixTree.empty t hb
    (by intro q e he; rw [routesAt_empty] at he; exact absurd he (by simp))
  have hinv0 : ∀ q e, e ∈ routesAt (rootSel t (v == 4)) q →
      e.prefix_len = 0 + q.length := by
    intro q e he
    rw [Nat.zero_add]
    exact hinv q e he
  have hs := collectPath_sorted_aux (pathBits a (maxBitsOf v) (maxBitsOf v))
    (rootSel t (v == 4)) 0 hinv0
  constructor
  · rw [← hl, collectPath_eq_pathEntriesSpec]
  · rw [← hl]
    exact hs.1

/-- Witness for C2 at the nested fixture and address `10.1.1.100`. -/
theorem c2_lookup_is_ordered_path_witness :
    (sampleTree.lookup "10.1.1.100").getD [] =
        pathEntriesSpec (rootSel sampleTree ((4 : Nat) == 4))
          (pathBits 0x0A010164 (maxBitsOf 4) (maxBitsOf 4)) ∧
      (((sampleTree.lookup "10.1.1.100").getD []).map
          RouteInfo.prefix_len).Sorted (· ≤ ·) :=
  c2_lookup_is_ordered_path sampleRows sampleTree (by rfl) "10.1.1.100" 4
    0x0A010164 (by rfl) _ (by rfl)

theorem cacheGet_cons_self (k : String) (v : Option (String × String × Nat))
    (c : Cache) : cacheGet ((k, v) :: c) k = some v := by
  simp [cacheGet]

theorem cached_radix_lookup_none_empty (t : RadixTree) (key : String)
    (l : List RouteInfo) (hlk : t.lookup key = some l)
    (hmiss : cached_radix_lookup t key = none) : l = [] := by
  unfold cached_radix_lookup at hmiss
  rw [hlk] at hmiss
  simp only at hmiss
  rcases hsr : sortRoutes l with _ | ⟨b, rest⟩
  · have hperm := List.perm_insertionSort routeLe l
    rw [sortRoutes] at hsr
    rw [hsr] at hperm
    exact hperm.symm.eq_nil
  · rw [hsr] at hmiss
    exact absurd hmiss (by simp)

/-- C8 counterexample: after looking up `1.1.1.1` against an empty table,
the `lru_cache` does hold an entry for that address (the memoised `None`),
contradicting "no cache entry exists for that address". -/
theorem c8_cache_stores_negative_counterexample :
    (get_nh ⟨[], RadixTree.empty, []⟩ "1.1.1.1").1 = .notFound ∧
      cacheGet (get_nh ⟨[], RadixTree.empty, []⟩ "1.1.1.1").2.cache "1.1.1.1" =
        some none ∧
      cacheGet (get_nh ⟨[], RadixTree.empty, []⟩ "1.1.1.1").2.cache "1.1.1.1" ≠
        none := by
  refine ⟨rfl, rfl, by decide⟩

/-- C8 (amended): `functools.lru_cache` memoises `None` results.  After a
lookup of an address with no matching route, the cache maps that address
to the negative result; a subsequent lookup of the same address is served
the memoised `None` at the cache layer, and the endpoint — treating it as
a miss — falls through to a direct trie query and answers 404 again. -/
theorem c8_negative_results_are_cached (st : ServiceState) (ip : String)
    (pn : IpNet) (hp : ip_network ip = some pn)
    (hfresh : cacheGet st.cache pn.addrText = none)
    (hmiss : cached_radix_lookup st.tree pn.addrText = none) :
    ∃ st1, get_nh st ip = (.notFound, st1) ∧
      st1.rows = st.rows ∧ st1.tree = st.tree ∧
      cacheGet st1.cache pn.addrText = some none ∧
      (get_nh st1 ip).1 = .notFound := by
  have hlpm : lpm_lookup_radix st.tree pn.addrText = [] := by
    unfold lpm_lookup_radix
    rcases hip2 : ip_address pn.addrText with _ | va
    · rfl
    · rcases hlk : st.tree.lookup pn.addrText with _ | l
      · rfl
      · have hl0 := cached_radix_lookup_none_empty st.tree pn.addrText l hlk hmiss
        subst hl0
        rfl
  have hcall : cacheCall st.tree st.cache pn.addrText =
      (none, ((pn.addrText, none) :: st.cache).take lruMaxsize) := by
    unfold cacheCall
    rw [hfresh, hmiss]
  refine ⟨⟨st.rows, st.tree, ((pn.addrText, none) :: st.cache).take lruMaxsize⟩,
    ?_, rfl, rfl, ?_, ?_⟩
  · unfold get_nh
    rw [hp]
    simp only [hcall, hlpm]
  · have : ((pn.addrText, none) :: st.cache).take lruMaxsize =
        (pn.addrText, none) :: st.cache.take 9999 := by
      rw [show lruMaxsize = 9999 + 1 from rfl, List.take_succ_cons]
    rw [this, cacheGet_cons_self]
  · unfold get_nh
    rw [hp]
    have hget : cacheGet (((pn.addrText, none) :: st.cache).take lruMaxsize)
        pn.addrText = some none := by
      rw [show lruMaxsize = 9999 + 1 from rfl, List.take_succ_cons,
        cacheGet_cons_self]
    have hcall2 : cacheCall st.tree
        (((pn.addrText, none) :: st.cache).take lruMaxsize) pn.addrText =
        (none, moveToFront (((pn.addrText, none) :: st.cache).take lruMaxsize)
          pn.addrText) := by
      unfold cacheCall
      rw [hget]
    simp only [hcall2, hlpm]

/-- Witness for the amended C8 at an empty table and address `1.1.1.1`. -/
theorem c8_negative_results_are_cached_witness :
    ∃ st1, get_nh ⟨[], RadixTree.empty, []⟩ "1.1.1.1" = (.notFound, st1) ∧
      st1.rows = ([] : List Row) ∧ st1.tree = RadixTree.empty ∧
      cacheGet st1.cache (IpNet.mk 4 0x01010101 32).addrText = some none ∧
      (get_nh st1 "1.1.1.1").1 = .notFound :=
  c8_negative_results_are_cached ⟨[], RadixTree.empty, []⟩ "1.1.1.1"
    ⟨4, 0x01010101, 32⟩ (by rfl) (by rfl) (by rfl)

theorem lpm_empty_of_cached_none (t : RadixTree) (key : String)
    (hmiss : cached_radix_lookup t key = none) :
    lpm_lookup_radix t key = [] := by
  unfold lpm_lookup_radix
  rcases hip2 : ip_address key with _ | va
  · rfl
  · rcases hlk : t.lookup key with _ | l
    · rfl
    · have hl0 := cached_radix_lookup_none_empty t key l hlk hmiss
      subst hl0
      rfl

/-- On a state whose cache is empty, `get_nh` answers purely from the
current tree: the freshly computed best route, or 404 when there is none. -/
theorem get_nh_empty_cache (rows : List Row) (t : RadixTree) (ip : String) :
    (get_nh ⟨rows, t, []⟩ ip).1 =
      (match ip_network ip with
      | none => LookupResponse.badRequest
      | some pn =>
        match cached_radix_lookup t pn.addrText with
        | some dnm => LookupResponse.ok dnm.1 dnm.2.1
        | none => LookupResponse.notFound) := by
  unfold get_nh
  rcases hp : ip_network ip with _ | pn
  · rfl
  · have hcall : cacheCall t [] pn.addrText =
        (cached_radix_lookup t pn.addrText,
          ((pn.addrText, cached_radix_lookup t pn.addrText) :: []).take lruMaxsize) := by
      unfold cacheCall
      rw [show cacheGet [] pn.addrText = none from rfl]
    simp only [hcall]
    rcases hm : cached_radix_lookup t pn.addrText with _ | dnm
    · have hlpm := lpm_empty_of_cached_none t pn.addrText hm
      simp only [hlpm]
    · simp only []

/-- C9: a `PUT` update that succeeds (non-zero count) leaves the service
with a fully cleared cache, and every subsequent lookup is answered from
the post-update tree — never from a cached pre-update result. -/
theorem c9_successful_update_clears_cache (st : ServiceState)
    (pfxStr nhStr : String) (m : Nat) (matchd : String) (n : Nat)
    (st2 : ServiceState)
    (h : update_match_endpoint st pfxStr nhStr m matchd = (.ok n, st2)) :
    0 < n ∧ st2.cache = [] ∧
    ∀ ip, (get_nh st2 ip).1 =
      (match ip_network ip with
      | none => LookupResponse.badRequest
      | some pn =>
        match cached_radix_lookup st2.tree pn.addrText with
        | some dnm => LookupResponse.ok dnm.1 dnm.2.1
        | none => LookupResponse.notFound) := by
  unfold update_match_endpoint at h
  split at h
  · exact absurd h (by simp)
  · split at h
    · exact absurd h (by simp)
    · split at h
      · rename_i pn hpn hnh2
        split at h
        · exact absurd h (by simp)
        · rename_i rct hlpmu
          split at h
          · exact absurd h (by simp)
          · rename_i hcnt
            rw [Prod.mk.injEq] at h
            obtain ⟨hresp, hst2⟩ := h
            injection hresp with hn
            refine ⟨by omega, ?_, ?_⟩
            · rw [← hst2]
            · intro ip
              rw [← hst2]
              exact get_nh_empty_cache rct.1 rct.2.2 ip
      · exact absurd h (by simp)

/-- Witness for C9: the successful orlonger update of spec scenario 6. -/
theorem c9_successful_update_clears_cache_witness :
    ∃ n st2,
      update_match_endpoint sampleState "10.1.0.0/16" "192.168.1.1" 50
          "orlonger" = (.ok n, st2) ∧
      0 < n ∧ st2.cache = [] ∧
      ∀ ip, (get_nh st2 ip).1 =
        (match ip_network ip with
        | none => LookupResponse.badRequest
        | some pn =>
          match cached_radix_lookup st2.tree pn.addrText with
          | some dnm => LookupResponse.ok dnm.1 dnm.2.1
          | none => LookupResponse.notFound) := by
  refine ⟨2, _, rfl, ?_⟩
  exact c9_successful_update_clears_cache sampleState "10.1.0.0/16"
    "192.168.1.1" 50 "orlonger" 2 _ rfl

theorem allRoutes_subtree_empty (four : Bool) (p : List Bool) :
    ((rootSel RadixTree.empty four).subtree p).allRoutes = [] := by
  cases four <;>
    · cases p with
      | nil => rfl
      | cons c ps =>
        cases c <;> simp [rootSel, RadixTree.empty, RTree.subtree, subtree_nil,
          RTree.allRoutes]

theorem updateMetricNet_count (t : RadixTree) (pn : IpNet) (nh : String)
    (m : Nat) (matchd : String) :
    (updateMetricNet t pn nh m matchd).2 =
      if matchd = "exact" then
        (routesAt (rootSel t (pn.version == 4))
          (pathBits pn.addr (maxBitsOf pn.version) pn.plen)).countP
          (fun e => e.next_hop == nh && e.prefix_str == pn.with_prefixlen)
      else
        ((rootSel t (pn.version == 4)).subtree
          (pathBits pn.addr (maxBitsOf pn.version) pn.plen)).allRoutes.countP
          (fun e => e.next_hop == nh) := by
  unfold updateMetricNet
  by_cases hv : pn.version = 4
  · have hv2 : (pn.version == 4) = true := by simp [hv]
    rw [if_pos hv]
    by_cases hm : matchd = "exact"
    · simp only [if_pos hm, update_exact_eq, rootSel, hv2, if_pos rfl, if_true]
    · simp only [if_neg hm, update_orlonger_eq, rootSel, hv2, if_pos rfl, if_true]
  · have hv2 : (pn.version == 4) = false := by simp [hv]
    rw [if_neg hv]
    by_cases hm : matchd = "exact"
    · simp only [if_pos hm, update_exact_eq, rootSel, hv2, Bool.false_eq_true,
        if_false]
    · simp only [if_neg hm, update_orlonger_eq, rootSel, hv2, Bool.false_eq_true,
        if_false]

theorem dfCountOrlonger_eq (rows : List Row) (pn : IpNet) (nh : String) :
    dfCountOrlonger rows pn nh =
      rows.countP (fun r => r.next_hop == nh && r.v == pn.version &&
        is_subnet_of_pfx pn r.prefix_str) := by
  unfold dfCountOrlonger
  have hcong : ∀ r ∈ rows.filter (fun r => r.next_hop == nh && r.v == pn.version),
      ((matchingPfxTexts rows pn nh).contains r.prefix_str) =
        is_subnet_of_pfx pn r.prefix_str := by
    intro r hr
    rcases List.mem_filter.mp hr with ⟨hrmem, hrp⟩
    rw [Bool.eq_iff_iff]
    constructor
    · intro hc
      have hmem : r.prefix_str ∈ matchingPfxTexts rows pn nh := by simpa using hc
      unfold matchingPfxTexts at hmem
      exact (List.mem_filter.mp hmem).2
    · intro hsub
      have hmem : r.prefix_str ∈ matchingPfxTexts rows pn nh := by
        unfold matchingPfxTexts
        refine List.mem_filter.mpr ⟨?_, hsub⟩
        exact List.mem_map.mpr ⟨r, List.mem_filter.mpr ⟨hrmem, hrp⟩, rfl⟩
      simpa using hmem
  rw [List.filter_congr hcong]
  rw [← List.countP_eq_length_filter]
  rw [List.countP_filter]
  refine List.countP_congr ?_
  intro r _
  constructor
  · intro h
    simp only [Bool.and_eq_true] at h ⊢
    exact ⟨h.2, h.1⟩
  · intro h
    simp only [Bool.and_eq_true] at h ⊢
    exact ⟨h.2, h.1⟩

theorem rowNodePred_eq_df (pn : IpNet) (nh : String) (r : Row)
    (hpn : ip_network pn.with_prefixlen = some pn) :
    rowNodePred (pn.version == 4)
        (pathBits pn.addr (maxBitsOf pn.version) pn.plen)
        (fun e => e.next_hop == nh && e.prefix_str == pn.with_prefixlen) r =
      dfMaskExact pn nh r := by
  unfold rowNodePred dfMaskExact
  rcases hnet : ip_network r.prefix_str with _ | rn
  · by_cases hstr : r.prefix_str = pn.with_prefixlen
    · rw [hstr] at hnet
      rw [hnet] at hpn
      exact absurd hpn (by simp)
    · have : (r.prefix_str == pn.with_prefixlen) = false := by
        simp [hstr]
      rw [this]
      simp
  · simp only [mkRoute]
    by_cases hstr : r.prefix_str = pn.with_prefixlen
    · have hrn : rn = pn := by
        rw [hstr] at hnet
        rw [hnet] at hpn
        injection hpn with hh
      rw [hrn]
      have hs2 : (r.prefix_str == pn.with_prefixlen) = true := by simp [hstr]
      rw [hs2]
      simp
    · have hs2 : (r.prefix_str == pn.with_prefixlen) = false := by simp [hstr]
      rw [hs2]
      simp

theorem rowSubtreePred_eq_df (pn : IpNet) (nh : String) (r : Row)
    (hpn : ip_network pn.with_prefixlen = some pn)
    (hv : ∀ rn, ip_network r.prefix_str = some rn → r.v = rn.version) :
    rowSubtreePred (pn.version == 4)
        (pathBits pn.addr (maxBitsOf pn.version) pn.plen)
        (fun e => e.next_hop == nh) r =
      (r.next_hop == nh && r.v == pn.version &&
        is_subnet_of_pfx pn r.prefix_str) := by
  have hpns := ip_network_sound _ _ hpn
  unfold rowSubtreePred is_subnet_of_pfx
  rcases hnet : ip_network r.prefix_str with _ | rn
  · simp
  · have hrs := ip_network_sound _ _ hnet
    have hvv := hv rn hnet
    simp only [mkRoute]
    by_cases hsame : rn.version = pn.version
    · have hW : maxBitsOf rn.version = maxBitsOf pn.version := by rw [hsame]
      have hfam : ((rn.version == 4) == (pn.version == 4)) = true := by
        rw [hsame]
        simp
      have hD : (r.v == pn.version) = true := by
        rw [hvv, hsame]
        simp
      rw [hfam, hD]
      by_cases hplen : rn.plen < pn.plen
      · have hB : listPfx (pathBits pn.addr (maxBitsOf pn.version) pn.plen)
            (pathBits rn.addr (maxBitsOf rn.version) rn.plen) = false := by
          rw [hW]
          cases hx : listPfx (pathBits pn.addr (maxBitsOf pn.version) pn.plen)
              (pathBits rn.addr (maxBitsOf pn.version) rn.plen) with
          | false => rfl
          | true =>
            have := (listPfx_pathBits_iff pn.addr rn.addr (maxBitsOf pn.version)
              pn.plen rn.plen hpns.2.1 (hW ▸ hrs.2.1) hpns.2.2.1
              (hW ▸ hrs.2.2.1)).mp hx
            exact absurd this.1 (by omega)
        rw [hB, if_pos (Or.inr hplen)]
        simp
      · have hple : pn.plen ≤ rn.plen := by omega
        have hcondneg : ¬ (rn.version ≠ pn.version ∨ rn.plen < pn.plen) := by
          push_neg
          exact ⟨hsame, by omega⟩
        rw [if_neg hcondneg, hW]
        have hBiff := listPfx_pathBits_iff pn.addr rn.addr (maxBitsOf pn.version)
          pn.plen rn.plen hpns.2.1 (hW ▸ hrs.2.1) hpns.2.2.1 (hW ▸ hrs.2.2.1)
        have hSiff : subnet_of rn pn = true ↔
            rn.addr / 2 ^ (maxBitsOf pn.version - pn.plen) =
              pn.addr / 2 ^ (maxBitsOf pn.version - pn.plen) := by
          unfold subnet_of
          rw [decide_eq_true_eq, hW]
          exact subnet_interval_iff (maxBitsOf pn.version) pn.plen rn.plen
            pn.addr rn.addr hpns.2.2.1 hple (hW ▸ hrs.2.2.1) hpns.2.2.2
            (hW ▸ hrs.2.2.2)
        rw [Bool.eq_iff_iff]
        simp only [Bool.and_eq_true, beq_iff_eq, Bool.true_and]
        constructor
        · intro hx
          rcases hx with ⟨hpfx, hnh2⟩
          refine ⟨⟨hnh2, trivial⟩, ?_⟩
          have hdiv := (hBiff.mp hpfx).2
          exact hSiff.mpr hdiv.symm
        · intro hx
          rcases hx with ⟨⟨hnh2, _⟩, hsub⟩
          exact ⟨hBiff.mpr ⟨hple, (hSiff.mp hsub).symm⟩, hnh2⟩
    · have hfamf : ((rn.version == 4) == (pn.version == 4)) = false := by
        rcases hrs.1 with h4 | h6 <;> rcases hpns.1 with g4 | g6
        · exact absurd (h4.trans g4.symm) hsame
        · simp [h4, g6]
        · simp [h6, g4]
        · exact absurd (h6.trans g6.symm) hsame
      have hDf : (r.v == pn.version) = false := by
        rw [hvv]
        simp [hsame]
      rw [hfamf, hDf]
      simp

/-- C10: on a store where the DataFrame rows and the radix tree hold the
same routes (the tree was built from the rows, and each row's `v` column
matches its prefix family, as after loading), the row count `lpm_update`
reports (`len(next_hop_df)`) equals the number of tree entries
`update_metric` touches, in both exact and orlonger modes. -/
theorem c10_df_tree_counts_agree (rows : List Row) (t : RadixTree)
    (hb : build_radix_tree rows = some t)
    (hvrow : ∀ r ∈ rows, ∀ rn, ip_network r.prefix_str = some rn →
      r.v = rn.version)
    (pn : IpNet) (nh : String) (m : Nat) (matchd : String)
    (hround : ip_network pn.with_prefixlen = some pn)
    (t2 : RadixTree) (c : Nat)
    (hu : t.update_metric pn.with_prefixlen nh m matchd = some (t2, c)) :
    c = dfCount rows pn nh matchd := by
  have hc : c = (updateMetricNet t pn nh m matchd).2 := by
    simp only [RadixTree.update_metric, hround] at hu
    injection hu with hu
    rw [hu]
  have hbf : buildFrom RadixTree.empty rows = some t := hb
  rw [hc, updateMetricNet_count]
  unfold dfCount
  by_cases hm2 : matchd = "exact"
  · rw [if_pos hm2, if_pos hm2]
    rw [buildFrom_routesAt_countP (pn.version == 4)
      (pathBits pn.addr (maxBitsOf pn.version) pn.plen)
      (fun e => e.next_hop == nh && e.prefix_str == pn.with_prefixlen)
      rows RadixTree.empty t hbf]
    rw [routesAt_empty]
    simp only [List.countP_nil, Nat.zero_add]
    unfold dfCountExact
    rw [← List.countP_eq_length_filter]
    refine List.countP_congr ?_
    intro r _
    rw [rowNodePred_eq_df pn nh r hround]
  · rw [if_neg hm2, if_neg hm2]
    rw [buildFrom_subtree_countP (pn.version == 4)
      (pathBits pn.addr (maxBitsOf pn.version) pn.plen)
      (fun e => e.next_hop == nh) rows RadixTree.empty t hbf]
    rw [allRoutes_subtree_empty]
    simp only [List.countP_nil, Nat.zero_add]
    rw [dfCountOrlonger_eq]
    refine List.countP_congr ?_
    intro r hr
    rw [rowSubtreePred_eq_df pn nh r hround (hvrow r hr)]

/-- Witness for C10: the orlonger update of spec scenario 6 on the nested
fixture; both counts are 2. -/
theorem c10_df_tree_counts_agree_witness :
    ∃ t2 c,
      sampleTree.update_metric (IpNet.mk 4 0x0A010000 16).with_prefixlen
          "192.168.1.1" 50 "orlonger" = some (t2, c) ∧
      c = dfCount sampleRows ⟨4, 0x0A010000, 16⟩ "192.168.1.1" "orlonger" ∧
      c = 2 := by
  refine ⟨_, _, rfl, ?_, by decide⟩
  refine c10_df_tree_counts_agree sampleRows sampleTree (by rfl) ?_
    ⟨4, 0x0A010000, 16⟩ "192.168.1.1" 50 "orlonger" (by rfl) _ _ rfl
  intro r hr rn hrn
  simp only [sampleRows, List.mem_cons, List.not_mem_nil, or_false] at hr
  rcases hr with h | h | h <;> subst h
  · rw [show ip_network (mkRow "10.0.0.0/8" "192.168.1.1").prefix_str =
        some ⟨4, 0x0A000000, 8⟩ from rfl] at hrn
    injection hrn with hh
    rw [← hh]
    decide
  · rw [show ip_network (mkRow "10.1.0.0/16" "192.168.1.1").prefix_str =
        some ⟨4, 0x0A010000, 16⟩ from rfl] at hrn
    injection hrn with hh
    rw [← hh]
    decide
  · rw [show ip_network (mkRow "10.1.1.0/24" "192.168.1.1").prefix_str =
        some ⟨4, 0x0A010100, 24⟩ from rfl] at hrn
    injection hrn with hh
    rw [← hh]
    decide
